import Mathlib

/-!
# Verification of the Transcriber-Pipeline core

Shallow embedding of the transcription pipeline's core logic:

* `stitcher.py` — text normalization (`_normalize_text`), the overlap-aware
  dedup join (`_dedup_join`, built on `difflib.SequenceMatcher` with
  `isjunk=None, autojunk=False`), full-text stitching (`stitch_outputs`),
  and the SRT character-count splitter (`_split_text_by_chars`);
* `segmenter.py` — window sizing (`_safe_chunk_window`), cut-point
  generation and chunk planning (`plan_and_segment`);
* `transcriber.py` — the retrying transcription call
  (`_retrying_transcribe`) and the manifest scheduler (`transcribe_manifest`).

Python strings are modelled as `List Char`; Python floats are modelled as
exact rationals (`ℚ`); machine behavior that can raise is modelled with
`Option`/`Except`.
-/

namespace Transcriber

/-- Python strings, modelled as lists of characters. -/
abbrev PyStr := List Char

/-! ## Python string primitives used by `_normalize_text`

`str.strip()` removes characters for which `Py_UNICODE_ISSPACE` holds;
`str.splitlines()` splits at the universal line boundaries
(`\n`, `\r`, `\r\n`, `\v`, `\f`, `\x1c`, `\x1d`, `\x1e`, `\x85`,
`U+2028`, `U+2029`). -/

/-- Python's notion of whitespace (`str.isspace` / `str.strip`). -/
def isPySpace (c : Char) : Bool :=
  let n := c.toNat
  (0x09 ≤ n && n ≤ 0x0d) || n == 0x20 || (0x1c ≤ n && n ≤ 0x1f) ||
    n == 0x85 || n == 0xa0 || n == 0x1680 || (0x2000 ≤ n && n ≤ 0x200a) ||
    n == 0x2028 || n == 0x2029 || n == 0x202f || n == 0x205f || n == 0x3000

/-- Python's universal line-boundary characters (`str.splitlines`). -/
def isLineBoundary (c : Char) : Bool :=
  let n := c.toNat
  n == 0x0a || n == 0x0d || n == 0x0b || n == 0x0c ||
    (0x1c ≤ n && n ≤ 0x1e) || n == 0x85 || n == 0x2028 || n == 0x2029

/-- Python `str.strip()`: drop leading and trailing whitespace. -/
def pyStrip (s : PyStr) : PyStr :=
  ((s.dropWhile isPySpace).reverse.dropWhile isPySpace).reverse

/-- Worker for `splitlines`: `acc` holds the current line reversed.
A `\r\n` pair counts as a single boundary; a trailing boundary does not
produce a final empty line. -/
def splitlinesAux : PyStr → PyStr → List PyStr
  | [], acc => if acc.isEmpty then [] else [acc.reverse]
  | '\r' :: '\n' :: rest, acc => acc.reverse :: splitlinesAux rest []
  | '\r' :: rest, acc => acc.reverse :: splitlinesAux rest []
  | c :: rest, acc =>
      if isLineBoundary c then acc.reverse :: splitlinesAux rest []
      else splitlinesAux rest (c :: acc)

/-- Python `str.splitlines()`. -/
def splitlines (s : PyStr) : List PyStr := splitlinesAux s []

/-- `"\n".join(lines)`. -/
def joinLines : List PyStr → PyStr
  | [] => []
  | [l] => l
  | l :: ls => l ++ '\n' :: joinLines ls

/-- The zero-width space character `U+200B`. -/
def zwsp : Char := Char.ofNat 0x200b

/-- The pre-processing of `_normalize_text`: replace every `\r` with `\n`,
then delete every zero-width space (`s.replace("\r", "\n")` followed by
`.replace("U+200B", "")`). -/
def normalizePre (s : PyStr) : PyStr :=
  (s.map fun c => if c = '\r' then '\n' else c).filter fun c => c ≠ zwsp

/-- `stitcher._normalize_text`: convert carriage returns to newlines, strip
zero-width spaces, strip every line, re-join with `\n`. -/
def normalizeText (s : PyStr) : PyStr :=
  if s = [] then []
  else joinLines ((splitlines (normalizePre s)).map pyStrip)

/-- Removing one trailing newline, when the text ends with one. -/
def dropTrailingNewline (t : PyStr) : PyStr :=
  if t.getLast? = some '\n' then t.dropLast else t

/-! ## Facts about `pyStrip` -/

lemma head?_dropWhile_false (p : Char → Bool) :
    ∀ (l : PyStr) (c : Char), (l.dropWhile p).head? = some c → p c = false := by
  intro l
  induction l with
  | nil => intro c h; simp [List.dropWhile] at h
  | cons a t ih =>
    intro c h
    cases hp : p a with
    | false =>
      rw [List.dropWhile_cons, if_neg (by simp [hp])] at h
      have : a = c := by simpa using h
      rw [← this]; exact hp
    | true =>
      rw [List.dropWhile_cons, if_pos (by simp [hp])] at h
      exact ih c h

lemma dropWhile_eq_self_of_head?_false (p : Char → Bool) (l : PyStr)
    (h : ∀ c, l.head? = some c → p c = false) : l.dropWhile p = l := by
  cases l with
  | nil => rfl
  | cons a t => rw [List.dropWhile_cons, if_neg (by simp [h a rfl])]

lemma dropWhile_isSuffix (p : Char → Bool) : ∀ l : PyStr, l.dropWhile p <:+ l := by
  intro l
  induction l with
  | nil => exact List.suffix_refl _
  | cons a t ih =>
    cases hp : p a
    · rw [List.dropWhile_cons, if_neg (by simp [hp])]
    · rw [List.dropWhile_cons, if_pos (by simp [hp])]
      exact ih.trans (List.suffix_cons a t)

lemma getLast?_reverse_eq_head? (l : PyStr) : l.reverse.getLast? = l.head? := by
  cases l with
  | nil => rfl
  | cons a t => rw [List.reverse_cons, List.getLast?_concat]; rfl

lemma head?_reverse_eq_getLast? (l : PyStr) : l.reverse.head? = l.getLast? := by
  have h := getLast?_reverse_eq_head? l.reverse
  rw [List.reverse_reverse] at h
  exact h.symm

lemma getLast?_of_isSuffix {s l : PyStr} (h : s <:+ l) (hs : s ≠ []) :
    l.getLast? = s.getLast? := by
  obtain ⟨t, rfl⟩ := h
  exact List.getLast?_append_of_ne_nil t hs

lemma pyStrip_head?_false (l : PyStr) (c : Char) (h : (pyStrip l).head? = some c) :
    isPySpace c = false := by
  unfold pyStrip at h
  rw [head?_reverse_eq_getLast?] at h
  have hBne : (l.dropWhile isPySpace).reverse.dropWhile isPySpace ≠ [] := by
    intro hb; rw [hb] at h; simp at h
  have h1 := getLast?_of_isSuffix (dropWhile_isSuffix isPySpace
    (l.dropWhile isPySpace).reverse) hBne
  rw [← h1, getLast?_reverse_eq_head?] at h
  exact head?_dropWhile_false _ _ _ h

lemma pyStrip_getLast?_false (l : PyStr) (c : Char) (h : (pyStrip l).getLast? = some c) :
    isPySpace c = false := by
  unfold pyStrip at h
  rw [getLast?_reverse_eq_head?] at h
  exact head?_dropWhile_false _ _ _ h

lemma pyStrip_idem (l : PyStr) : pyStrip (pyStrip l) = pyStrip l := by
  have h1 : (pyStrip l).dropWhile isPySpace = pyStrip l :=
    dropWhile_eq_self_of_head?_false _ _ (fun c hc => pyStrip_head?_false l c hc)
  have h2 : (pyStrip l).reverse.dropWhile isPySpace = (pyStrip l).reverse := by
    apply dropWhile_eq_self_of_head?_false
    intro c hc
    rw [head?_reverse_eq_getLast?] at hc
    exact pyStrip_getLast?_false l c hc
  show (((pyStrip l).dropWhile isPySpace).reverse.dropWhile isPySpace).reverse = pyStrip l
  rw [h1, h2, List.reverse_reverse]

lemma mem_pyStrip {c : Char} {l : PyStr} (h : c ∈ pyStrip l) : c ∈ l := by
  unfold pyStrip at h
  rw [List.mem_reverse] at h
  have h2 := (dropWhile_isSuffix isPySpace _).subset h
  rw [List.mem_reverse] at h2
  exact (dropWhile_isSuffix isPySpace l).subset h2

/-! ## Facts about `splitlines` and `joinLines` -/

lemma splitlinesAux_nil (acc : PyStr) :
    splitlinesAux [] acc = if acc.isEmpty then [] else [acc.reverse] := rfl

lemma splitlinesAux_cons_not_cr (c : Char) (rest acc : PyStr) (hc : c ≠ '\r') :
    splitlinesAux (c :: rest) acc =
      if isLineBoundary c then acc.reverse :: splitlinesAux rest []
      else splitlinesAux rest (c :: acc) := by
  rw [splitlinesAux.eq_def]
  split
  · rename_i heq
    exact absurd heq (by simp)
  · rename_i heq
    rw [List.cons.injEq] at heq
    exact absurd heq.1 hc
  · rename_i h1 heq
    rw [List.cons.injEq] at heq
    exact absurd heq.1 hc
  · rename_i h1 h2 heq
    rw [List.cons.injEq] at heq
    obtain ⟨he1, he2⟩ := heq
    subst he1; subst he2
    rfl

lemma isLineBoundary_cr : isLineBoundary '\r' = true := by decide

lemma isLineBoundary_lf : isLineBoundary '\n' = true := by decide

/-- Every line emitted by `splitlines` is free of line-boundary characters
(stated for carriage-return-free input, which is all the normalizer feeds it). -/
lemma splitlinesAux_boundary_free :
    ∀ (s acc : PyStr), '\r' ∉ s → (∀ c ∈ acc, isLineBoundary c = false) →
      ∀ l ∈ splitlinesAux s acc, ∀ c ∈ l, isLineBoundary c = false := by
  intro s
  induction s with
  | nil =>
    intro acc _ hacc l hl c hc
    rw [splitlinesAux_nil] at hl
    rcases ha : acc.isEmpty with _ | _
    · rw [ha] at hl
      simp at hl
      subst hl
      exact hacc c (by rwa [List.mem_reverse] at hc)
    · rw [ha] at hl; simp at hl
  | cons a rest ih =>
    intro acc hr hacc l hl c hc
    have har : a ≠ '\r' := fun h => hr (h ▸ List.mem_cons_self a rest)
    have hrr : '\r' ∉ rest := fun h => hr (List.mem_cons_of_mem a h)
    rw [splitlinesAux_cons_not_cr a rest acc har] at hl
    rcases hb : isLineBoundary a with _ | _
    · rw [hb] at hl
      simp only [if_neg Bool.false_ne_true] at hl
      refine ih (a :: acc) hrr ?_ l hl c hc
      intro d hd
      rcases List.mem_cons.mp hd with h | h
      · rw [h]; exact hb
      · exact hacc d h
    · rw [hb] at hl
      simp only [if_pos rfl] at hl
      rcases List.mem_cons.mp hl with h | h
      · subst h
        exact hacc c (by rwa [List.mem_reverse] at hc)
      · exact ih [] hrr (by simp) l h c hc

/-- Every character of a `splitlines` line comes from the input
(for carriage-return-free input). -/
lemma splitlinesAux_mem :
    ∀ (s acc : PyStr), '\r' ∉ s →
      ∀ l ∈ splitlinesAux s acc, ∀ c ∈ l, c ∈ s ∨ c ∈ acc := by
  intro s
  induction s with
  | nil =>
    intro acc _ l hl c hc
    rw [splitlinesAux_nil] at hl
    rcases ha : acc.isEmpty with _ | _
    · rw [ha] at hl
      simp at hl
      subst hl
      exact Or.inr (by rwa [List.mem_reverse] at hc)
    · rw [ha] at hl; simp at hl
  | cons a rest ih =>
    intro acc hr l hl c hc
    have har : a ≠ '\r' := fun h => hr (h ▸ List.mem_cons_self a rest)
    have hrr : '\r' ∉ rest := fun h => hr (List.mem_cons_of_mem a h)
    rw [splitlinesAux_cons_not_cr a rest acc har] at hl
    rcases hb : isLineBoundary a with _ | _
    · rw [hb] at hl
      simp only [if_neg Bool.false_ne_true] at hl
      rcases ih (a :: acc) hrr l hl c hc with h | h
      · exact Or.inl (List.mem_cons_of_mem a h)
      · rcases List.mem_cons.mp h with h' | h'
        · exact Or.inl (h' ▸ List.mem_cons_self a rest)
        · exact Or.inr h'
    · rw [hb] at hl
      simp only [if_pos rfl] at hl
      rcases List.mem_cons.mp hl with h | h
      · subst h
        exact Or.inr (by rwa [List.mem_reverse] at hc)
      · rcases ih [] hrr l h c hc with h' | h'
        · exact Or.inl (List.mem_cons_of_mem a h')
        · simp at h'

/-- On boundary-free input, `splitlinesAux` yields a single line. -/
lemma splitlinesAux_no_boundary (l : PyStr) (hl : ∀ c ∈ l, isLineBoundary c = false) :
    ∀ acc, splitlinesAux l acc =
      if l = [] ∧ acc = [] then [] else [acc.reverse ++ l] := by
  induction l with
  | nil =>
    intro acc
    rw [splitlinesAux_nil]
    rcases acc with _ | ⟨a, t⟩ <;> simp
  | cons c rest ih =>
    intro acc
    have hc : isLineBoundary c = false := hl c (List.mem_cons_self c rest)
    have hcr : c ≠ '\r' := by
      intro h; rw [h, isLineBoundary_cr] at hc; cases hc
    rw [splitlinesAux_cons_not_cr c rest acc hcr, hc,
      if_neg Bool.false_ne_true,
      ih (fun d hd => hl d (List.mem_cons_of_mem c hd)) (c :: acc)]
    simp

/-- Splitting around an explicit `\n` after a boundary-free chunk. -/
lemma splitlinesAux_append_newline (l₁ : PyStr)
    (h : ∀ c ∈ l₁, isLineBoundary c = false) (rest : PyStr) :
    ∀ acc, splitlinesAux (l₁ ++ '\n' :: rest) acc =
      (acc.reverse ++ l₁) :: splitlinesAux rest [] := by
  induction l₁ with
  | nil =>
    intro acc
    rw [List.nil_append, splitlinesAux_cons_not_cr '\n' rest acc (by decide),
      isLineBoundary_lf, if_pos rfl]
    simp
  | cons c l ih =>
    intro acc
    have hc : isLineBoundary c = false := h c (List.mem_cons_self c l)
    have hcr : c ≠ '\r' := by
      intro hh; rw [hh, isLineBoundary_cr] at hc; cases hc
    rw [List.cons_append, splitlinesAux_cons_not_cr c _ acc hcr, hc,
      if_neg Bool.false_ne_true,
      ih (fun d hd => h d (List.mem_cons_of_mem c hd)) (c :: acc)]
    simp

lemma joinLines_cons_cons (l l' : PyStr) (L : List PyStr) :
    joinLines (l :: l' :: L) = l ++ '\n' :: joinLines (l' :: L) := rfl

/-- Splitting a joined, boundary-free line list recovers the lines, except
that a single trailing empty line is swallowed. -/
lemma splitlines_joinLines (L : List PyStr)
    (h : ∀ l ∈ L, ∀ c ∈ l, isLineBoundary c = false) :
    splitlines (joinLines L) =
      if L.getLast? = some [] then L.dropLast else L := by
  induction L with
  | nil => simp [joinLines, splitlines, splitlinesAux_nil]
  | cons l L ih =>
    rcases L with _ | ⟨l', L'⟩
    · show splitlines (joinLines [l]) = _
      have hl := h l (List.mem_cons_self l [])
      show splitlinesAux l [] = _
      rw [splitlinesAux_no_boundary l hl []]
      rcases l with _ | ⟨c, t⟩ <;> simp
    · rw [joinLines_cons_cons]
      show splitlinesAux (l ++ '\n' :: joinLines (l' :: L')) [] = _
      rw [splitlinesAux_append_newline l (h l (List.mem_cons_self l _)) _ []]
      have ih' := ih (fun x hx => h x (List.mem_cons_of_mem l hx))
      show (List.reverse [] ++ l) :: splitlines (joinLines (l' :: L')) = _
      rw [ih']
      rcases hlast : (l' :: L').getLast? with _ | x
      · simp [List.getLast?] at hlast
      · rw [List.getLast?_cons_cons, hlast]
        by_cases hx : x = []
        · subst hx
          simp only [if_pos rfl]
          rfl
        · rw [if_neg (by simpa using hx), if_neg (by simpa using hx)]
          simp

lemma mem_joinLines {c : Char} : ∀ (L : List PyStr), c ∈ joinLines L →
    (∃ l ∈ L, c ∈ l) ∨ c = '\n' := by
  intro L
  induction L with
  | nil => intro h; simp [joinLines] at h
  | cons l L ih =>
    rcases L with _ | ⟨l', L'⟩
    · intro h
      exact Or.inl ⟨l, List.mem_cons_self l [], h⟩
    · intro h
      rw [joinLines_cons_cons] at h
      rcases List.mem_append.mp h with h | h
      · exact Or.inl ⟨l, List.mem_cons_self _ _, h⟩
      · rcases List.mem_cons.mp h with h | h
        · exact Or.inr h
        · rcases ih h with ⟨x, hx, hcx⟩ | h'
          · exact Or.inl ⟨x, List.mem_cons_of_mem l hx, hcx⟩
          · exact Or.inr h'

lemma mem_of_getLast? : ∀ (l : PyStr) (a : Char), l.getLast? = some a → a ∈ l := by
  intro l
  induction l with
  | nil => intro a h; simp [List.getLast?] at h
  | cons c t ih =>
    intro a h
    rcases t with _ | ⟨d, t'⟩
    · simp [List.getLast?] at h
      rw [h]
      exact List.mem_cons_self _ _
    · rw [List.getLast?_cons_cons] at h
      exact List.mem_cons_of_mem c (ih a h)

lemma exists_of_getLast? : ∀ (L : List PyStr) (a : PyStr), L.getLast? = some a →
    ∃ L', L = L' ++ [a] := by
  intro L
  induction L with
  | nil => intro a h; simp [List.getLast?] at h
  | cons l L ih =>
    intro a h
    rcases L with _ | ⟨l', L'⟩
    · simp [List.getLast?] at h
      exact ⟨[], by rw [h]; rfl⟩
    · rw [List.getLast?_cons_cons] at h
      obtain ⟨L'', hL⟩ := ih a h
      exact ⟨l :: L'', by rw [List.cons_append, ← hL]⟩

/-- The last character of a non-empty boundary-free join is a newline exactly
when the last line is empty. -/
lemma joinLines_getLast?_newline : ∀ (L : List PyStr),
    (∀ l ∈ L, ∀ c ∈ l, isLineBoundary c = false) → joinLines L ≠ [] →
    ((joinLines L).getLast? = some '\n' ↔ L.getLast? = some []) := by
  intro L
  induction L with
  | nil => intro _ hne; exact absurd rfl hne
  | cons l L ih =>
    intro hbf hne
    rcases L with _ | ⟨l', L'⟩
    · have hlne : l ≠ [] := hne
      constructor
      · intro h
        have hm : '\n' ∈ l := mem_of_getLast? l '\n' h
        have := hbf l (List.mem_cons_self l []) '\n' hm
        rw [isLineBoundary_lf] at this
        cases this
      · intro h
        simp [List.getLast?] at h
        exact absurd h hlne
    · rw [joinLines_cons_cons, List.getLast?_append_cons, List.getLast?_cons_cons]
      have hbf' : ∀ x ∈ l' :: L', ∀ c ∈ x, isLineBoundary c = false :=
        fun x hx => hbf x (List.mem_cons_of_mem l hx)
      by_cases hJ : joinLines (l' :: L') = []
      · rw [hJ]
        have hRHS : (l' :: L').getLast? = some [] := by
          rcases L' with _ | ⟨x, xs⟩
          · have hl' : l' = [] := hJ
            subst hl'; rfl
          · rw [joinLines_cons_cons] at hJ
            simp at hJ
        rw [hRHS]
        simp [List.getLast?]
      · have hsplit : ('\n' :: joinLines (l' :: L')) = ['\n'] ++ joinLines (l' :: L') := rfl
        rw [hsplit, List.getLast?_append_of_ne_nil _ hJ]
        exact ih hbf' hJ

lemma joinLines_concat_nil : ∀ (L : List PyStr), L ≠ [] →
    joinLines (L ++ [[]]) = joinLines L ++ ['\n'] := by
  intro L
  induction L with
  | nil => intro h; exact absurd rfl h
  | cons l L ih =>
    intro _
    rcases L with _ | ⟨l', L'⟩
    · rfl
    · show joinLines (l :: (l' :: L') ++ [[]]) = _
      rw [List.cons_append, joinLines_cons_cons]
      show l ++ '\n' :: joinLines ((l' :: L') ++ [[]]) = _
      rw [ih (by simp)]
      simp

/-! ## Facts about `normalizeText` -/

lemma normalizePre_no_cr (s : PyStr) : '\r' ∉ normalizePre s := by
  intro h
  unfold normalizePre at h
  have h1 := List.mem_of_mem_filter h
  rw [List.mem_map] at h1
  obtain ⟨c, _, hc⟩ := h1
  by_cases hcc : c = '\r'
  · rw [if_pos hcc] at hc; exact absurd hc (by decide)
  · rw [if_neg hcc] at hc; exact hcc hc

lemma normalizePre_no_zwsp (s : PyStr) : zwsp ∉ normalizePre s := by
  intro h
  unfold normalizePre at h
  have h1 := List.of_mem_filter h
  simp at h1

lemma map_eq_self_of {α : Type} (f : α → α) : ∀ (l : List α),
    (∀ a ∈ l, f a = a) → l.map f = l := by
  intro l
  induction l with
  | nil => intro _; rfl
  | cons a t ih =>
    intro h
    rw [List.map_cons, h a (List.mem_cons_self a t),
      ih (fun c hc => h c (List.mem_cons_of_mem a hc))]

lemma eq_of_map_eq_self {α : Type} (f : α → α) : ∀ (l : List α),
    l.map f = l → ∀ a ∈ l, f a = a := by
  intro l
  induction l with
  | nil => intro _ a ha; simp at ha
  | cons b t ih =>
    intro h a ha
    rw [List.map_cons, List.cons.injEq] at h
    rcases List.mem_cons.mp ha with h' | h'
    · rw [h']; exact h.1
    · exact ih h.2 a h'

lemma map_congr' {α β : Type} (f g : α → β) : ∀ (l : List α),
    (∀ a ∈ l, f a = g a) → l.map f = l.map g := by
  intro l
  induction l with
  | nil => intro _; rfl
  | cons a t ih =>
    intro h
    rw [List.map_cons, List.map_cons, h a (List.mem_cons_self a t),
      ih (fun c hc => h c (List.mem_cons_of_mem a hc))]

lemma normalizePre_fix (t : PyStr) (h1 : '\r' ∉ t) (h2 : zwsp ∉ t) :
    normalizePre t = t := by
  unfold normalizePre
  rw [map_eq_self_of _ t (fun c hc => if_neg (fun (he : c = '\r') => h1 (he ▸ hc)))]
  exact List.filter_eq_self.mpr
    (fun c hc => decide_eq_true (fun (he : c = zwsp) => h2 (he ▸ hc)))

lemma normalizeText_chars (s : PyStr) {c : Char} (hc : c ∈ normalizeText s) :
    c = '\n' ∨ (isLineBoundary c = false ∧ c ∈ normalizePre s) := by
  unfold normalizeText at hc
  by_cases hs : s = []
  · rw [if_pos hs] at hc; simp at hc
  · rw [if_neg hs] at hc
    rcases mem_joinLines _ hc with ⟨l, hl, hcl⟩ | h
    · rw [List.mem_map] at hl
      obtain ⟨l₀, hl₀, rfl⟩ := hl
      have hmem := mem_pyStrip hcl
      refine Or.inr ⟨?_, ?_⟩
      · exact splitlinesAux_boundary_free _ [] (normalizePre_no_cr s) (by simp)
          l₀ hl₀ c hmem
      · rcases splitlinesAux_mem _ [] (normalizePre_no_cr s) l₀ hl₀ c hmem with h | h
        · exact h
        · simp at h
    · exact Or.inl h

lemma normalizeText_no_cr (s : PyStr) : '\r' ∉ normalizeText s := by
  intro h
  rcases normalizeText_chars s h with h' | ⟨hb, _⟩
  · exact absurd h' (by decide)
  · rw [isLineBoundary_cr] at hb; cases hb

lemma normalizeText_no_zwsp (s : PyStr) : zwsp ∉ normalizeText s := by
  intro h
  rcases normalizeText_chars s h with h' | ⟨_, hm⟩
  · exact absurd h' (by decide)
  · exact normalizePre_no_zwsp s hm

/-- Claim C10 (amended): renormalizing the output of `_normalize_text` removes
exactly one trailing newline when the normalized text ends with one, and is the
identity otherwise; `_normalize_text` is therefore not idempotent in general,
only up to a single trailing newline. -/
theorem c10_normalize_renormalize (s : PyStr) :
    normalizeText (normalizeText s) = dropTrailingNewline (normalizeText s) := by
  by_cases hs : s = []
  · subst hs; rfl
  · by_cases htn : normalizeText s = []
    · rw [htn]; rfl
    · have hlines : normalizeText s =
          joinLines ((splitlines (normalizePre s)).map pyStrip) := by
        rw [normalizeText, if_neg hs]
      have hbf : ∀ l ∈ (splitlines (normalizePre s)).map pyStrip,
          ∀ c ∈ l, isLineBoundary c = false := by
        intro l hl c hc
        rw [List.mem_map] at hl
        obtain ⟨l₀, hl₀, rfl⟩ := hl
        exact splitlinesAux_boundary_free _ [] (normalizePre_no_cr s) (by simp)
          l₀ hl₀ c (mem_pyStrip hc)
      have hpre : normalizePre (normalizeText s) = normalizeText s :=
        normalizePre_fix _ (normalizeText_no_cr s) (normalizeText_no_zwsp s)
      have hmap : ((splitlines (normalizePre s)).map pyStrip).map pyStrip =
          (splitlines (normalizePre s)).map pyStrip := by
        rw [List.map_map]
        exact map_congr' _ _ _ (fun a _ => pyStrip_idem a)
      rw [show normalizeText (normalizeText s) =
          joinLines ((splitlines (normalizePre (normalizeText s))).map pyStrip) by
            rw [normalizeText, if_neg htn]]
      rw [hpre]
      conv_lhs => rw [hlines]
      rw [splitlines_joinLines _ hbf]
      by_cases hLast : ((splitlines (normalizePre s)).map pyStrip).getLast? = some []
      · rw [if_pos hLast]
        obtain ⟨L', hL'⟩ := exists_of_getLast? _ [] hLast
        have hL'ne : L' ≠ [] := by
          intro h0
          rw [h0] at hL'
          rw [hlines, hL'] at htn
          exact htn rfl
        have hdrop : ((splitlines (normalizePre s)).map pyStrip).dropLast = L' := by
          rw [hL', List.dropLast_concat]
        rw [hdrop]
        have hjoin : joinLines (L' ++ [[]]) = joinLines L' ++ ['\n'] :=
          joinLines_concat_nil L' hL'ne
        have hmapL' : L'.map pyStrip = L' := by
          apply map_eq_self_of
          intro a ha
          exact eq_of_map_eq_self pyStrip _ hmap a (by rw [hL']; exact List.mem_append_left _ ha)
        rw [hmapL']
        have hgl : (normalizeText s).getLast? = some '\n' := by
          rw [hlines, hL', hjoin, List.getLast?_concat]
        rw [dropTrailingNewline, if_pos hgl, hlines, hL', hjoin, List.dropLast_concat]
      · rw [if_neg hLast, hmap, ← hlines]
        have hgl : ¬ (normalizeText s).getLast? = some '\n' := by
          intro h
          apply hLast
          rw [← joinLines_getLast?_newline _ hbf (by rw [← hlines]; exact htn), ← hlines]
          exact h
        rw [dropTrailingNewline, if_neg hgl]

/-- Claim C10 counterexample: `_normalize_text` applied to the two-trailing-newline
string "a\n\n" yields "a\n", and normalizing again yields "a", so normalization
is not idempotent. -/
theorem c10_counterexample :
    normalizeText (normalizeText ('a' :: '\n' :: '\n' :: [])) ≠
      normalizeText ('a' :: '\n' :: '\n' :: []) := by decide

/-! ## `stitcher._split_text_by_chars` (SRT sub-span splitting) -/

/-- `stitcher._split_text_by_chars`: split `text` into `parts` contiguous
character-count pieces (`parts` models the Python int; the `parts <= 1`
branch covers every value up to 1). The slice `text[i*n:(i+1)*n]` is
`(text.drop (i*n)).take n` — both clamp at the ends exactly as Python
slices do. -/
def splitTextByChars (text : PyStr) (parts : ℕ) : List PyStr :=
  if parts ≤ 1 then [text]
  else
    let n := max 1 (text.length / parts)
    ((List.range (parts - 1)).map fun i => (text.drop (i * n)).take n) ++
      [text.drop ((parts - 1) * n)]

lemma splitPieces_flatten (t : PyStr) (n : ℕ) : ∀ (m : ℕ),
    ((List.range m).map fun i => (t.drop (i * n)).take n).flatten ++
      t.drop (m * n) = t := by
  intro m
  induction m with
  | zero => simp
  | succ m ih =>
    rw [List.range_succ, List.map_append, List.flatten_append]
    have hd : t.drop ((m + 1) * n) = (t.drop (m * n)).drop n := by
      rw [List.drop_drop]
      congr 1
      ring
    rw [hd]
    simp only [List.map_cons, List.map_nil, List.flatten_cons, List.flatten_nil,
      List.append_nil, List.append_assoc]
    rw [List.take_append_drop]
    exact ih

/-- Claim C9: for every text and every `parts ≥ 1`, the SRT character-count
splitter returns exactly `parts` pieces whose in-order concatenation is the
original text — no character is lost or duplicated. -/
theorem c9_split_text_exact (text : PyStr) (parts : ℕ) (h : 1 ≤ parts) :
    (splitTextByChars text parts).length = parts ∧
      (splitTextByChars text parts).flatten = text := by
  by_cases hp : parts ≤ 1
  · have h1 : parts = 1 := le_antisymm hp h
    subst h1
    constructor
    · rfl
    · simp [splitTextByChars]
  · rw [splitTextByChars, if_neg hp]
    constructor
    · simp only [List.length_append, List.length_map, List.length_range,
        List.length_cons, List.length_nil]
      omega
    · rw [List.flatten_append]
      simp only [List.flatten_cons, List.flatten_nil, List.append_nil]
      exact splitPieces_flatten text _ (parts - 1)

/-- Witness for C9 at `text = "abcdefg"`, `parts = 3`. -/
theorem c9_split_text_exact_witness :
    (splitTextByChars "abcdefg".data 3).length = 3 ∧
      (splitTextByChars "abcdefg".data 3).flatten = "abcdefg".data :=
  c9_split_text_exact "abcdefg".data 3 (by decide)

/-! ## The transcription scheduler (`transcriber.py`)

`_retrying_transcribe` and `transcribe_manifest`. The external transcription
collaborator is modelled as an oracle mapping (chunk index, attempt number)
to either an error message or a transcript; wall-clock latency is an opaque
natural, backoff delays are exact rationals. The thread pool processes each
pending chunk independently (one worker owns one record); the model processes
them in manifest order, which fixes one of the admissible completion orders. -/

/-- `transcriber.TRANSIENT_ERRORS`. -/
def TRANSIENT_ERRORS : List PyStr :=
  ["rate_limit_exceeded".data, "server_error".data, "temporarily_unavailable".data]

/-- Python `str.lower()` (ASCII case folding; the transient markers are
pure ASCII). -/
def pyLower (s : PyStr) : PyStr := s.map Char.toLower

/-- Python `pat in s` for strings: contiguous substring test. -/
def isSubstring : PyStr → PyStr → Bool
  | pat, [] => pat.isEmpty
  | pat, c :: rest => pat.isPrefixOf (c :: rest) || isSubstring pat rest

/-- `any(t in msg for t in TRANSIENT_ERRORS)` applied to `str(e).lower()`. -/
def isTransientMsg (msg : PyStr) : Bool :=
  TRANSIENT_ERRORS.any fun t => isSubstring t (pyLower msg)

/-- Result of one `_retrying_transcribe` run: the final outcome, the number
of transcription calls made, and the list of back-off sleeps (seconds). -/
structure RetryOutcome where
  result : Except PyStr (Option PyStr × ℕ)
  calls : ℕ
  sleeps : List ℚ

/-- The `for attempt in range(max_retries + 1)` loop of
`_retrying_transcribe`. `tr attempt` is the outcome of the transcription
call on that attempt (`.error` models a raised exception, carrying
`str(e)`). The fuel is `maxRetries + 1 - attempt`: the loop's remaining
iterations; the loop always returns or re-raises on its last iteration, so
the fuel-0 default is unreachable from `retryingTranscribe`. -/
def retryAux (maxRetries : ℕ) (backoff : ℚ)
    (tr : ℕ → Except PyStr (Option PyStr × ℕ)) : ℕ → ℕ → RetryOutcome
  | _, 0 => ⟨.error [], 0, []⟩
  | attempt, fuel + 1 =>
    match tr attempt with
    | .ok v => ⟨.ok v, 1, []⟩
    | .error e =>
      if attempt < maxRetries ∧ isTransientMsg e then
        let rest := retryAux maxRetries backoff tr (attempt + 1) fuel
        ⟨rest.result, rest.calls + 1, (2 ^ attempt * backoff / 1000) :: rest.sleeps⟩
      else ⟨.error e, 1, []⟩

/-- `transcriber._retrying_transcribe`. -/
def retryingTranscribe (maxRetries : ℕ) (backoff : ℚ)
    (tr : ℕ → Except PyStr (Option PyStr × ℕ)) : RetryOutcome :=
  retryAux maxRetries backoff tr 0 (maxRetries + 1)

/-- Chunk status strings `"pending"`, `"done"`, `"error"`. -/
inductive ChunkStatus
  | pending
  | done
  | error
deriving DecidableEq

/-- A manifest `ChunkRecord` (the fields the scheduler touches). -/
structure ChunkRec where
  index : ℕ
  text : Option PyStr
  latencyMs : Option ℕ
  status : ChunkStatus
  errMsg : Option PyStr
deriving DecidableEq

/-- The persisted manifest (its ordered chunk records). -/
structure Manifest where
  chunks : List ChunkRec
deriving DecidableEq

/-- The `work` closure of `transcribe_manifest`: run the retrying call on one
chunk; on success record text/latency and mark `done`, on failure mark
`error` with the captured message. Returns the updated record and the number
of transcription calls made for it. -/
def workChunk (maxRetries : ℕ) (backoff : ℚ)
    (tr : ℕ → ℕ → Except PyStr (Option PyStr × ℕ)) (c : ChunkRec) :
    ChunkRec × ℕ :=
  let r := retryingTranscribe maxRetries backoff (tr c.index)
  match r.result with
  | .ok (t, l) =>
    ({ c with text := t, latencyMs := some l, status := .done }, r.calls)
  | .error e =>
    ({ c with status := .error, errMsg := some e }, r.calls)

/-- Result of one `transcribe_manifest` run: the final manifest (which is
also what the closing `_save_manifest` persists), the total number of
transcription calls, and the number of intermediate per-completion manifest
saves. -/
structure SchedResult where
  manifest : Manifest
  transcribeCalls : ℕ
  midSaves : ℕ
deriving DecidableEq

/-- `transcriber.transcribe_manifest`: every chunk whose status is
`"pending"` is processed by `work` (and a manifest save follows each
completion); chunks already terminal are left untouched. -/
def transcribeManifest (maxRetries : ℕ) (backoff : ℚ)
    (tr : ℕ → ℕ → Except PyStr (Option PyStr × ℕ)) (m : Manifest) :
    SchedResult :=
  let step := fun (st : List ChunkRec × ℕ × ℕ) (c : ChunkRec) =>
    if c.status = .pending then
      let (c', k) := workChunk maxRetries backoff tr c
      (st.1 ++ [c'], st.2.1 + k, st.2.2 + 1)
    else (st.1 ++ [c], st.2.1, st.2.2)
  let res := m.chunks.foldl step ([], 0, 0)
  ⟨⟨res.1⟩, res.2.1, res.2.2⟩

/-! ## Claim C3: the retry law -/

lemma retryAux_transient (maxRetries : ℕ) (backoff : ℚ)
    (tr : ℕ → Except PyStr (Option PyStr × ℕ)) (msg : ℕ → PyStr)
    (htr : ∀ n, tr n = .error (msg n) ∧ isTransientMsg (msg n) = true) :
    ∀ (fuel attempt : ℕ), attempt + fuel = maxRetries + 1 → 1 ≤ fuel →
      retryAux maxRetries backoff tr attempt fuel =
        ⟨.error (msg maxRetries), fuel,
          (List.range (fuel - 1)).map fun i => 2 ^ (attempt + i) * backoff / 1000⟩ := by
  intro fuel
  induction fuel with
  | zero => intro attempt _ h1; omega
  | succ f ih =>
    intro attempt hsum _
    have h1 := (htr attempt).1
    have h2 := (htr attempt).2
    simp only [retryAux, h1]
    rcases Nat.eq_zero_or_pos f with hf | hf
    · subst hf
      rw [if_neg (fun h => absurd h.1 (by omega))]
      have hatt : attempt = maxRetries := by omega
      rw [hatt]
      simp
    · rw [if_pos ⟨by omega, h2⟩, ih (attempt + 1) (by omega) (by omega)]
      obtain ⟨k, rfl⟩ : ∃ k, f = k + 1 := ⟨f - 1, by omega⟩
      simp only [Nat.add_sub_cancel]
      rw [List.range_succ_eq_map, List.map_cons, List.map_map]
      refine congrArg₂ (fun a b => RetryOutcome.mk (Except.error (msg maxRetries)) a b)
        rfl ?_
      rw [Nat.add_zero]
      refine congrArg (List.cons _) ?_
      refine map_congr' _ _ _ (fun i _ => ?_)
      show 2 ^ (attempt + 1 + i) * backoff / 1000 =
        2 ^ (attempt + Nat.succ i) * backoff / 1000
      have he : attempt + 1 + i = attempt + Nat.succ i := by omega
      rw [he]

/-- Claim C3: a chunk whose transcription call always raises a
transient-marked error is attempted exactly `max_retries + 1` times and
sleeps exactly `max_retries` times, the nth sleep (0-indexed) lasting
`backoff_base_ms * 2^n / 1000` seconds. -/
theorem c3_retry_law (maxRetries : ℕ) (backoff : ℚ)
    (tr : ℕ → Except PyStr (Option PyStr × ℕ)) (msg : ℕ → PyStr)
    (htr : ∀ n, tr n = .error (msg n) ∧ isTransientMsg (msg n) = true) :
    (retryingTranscribe maxRetries backoff tr).calls = maxRetries + 1 ∧
    (retryingTranscribe maxRetries backoff tr).sleeps.length = maxRetries ∧
    ∀ i, i < maxRetries →
      (retryingTranscribe maxRetries backoff tr).sleeps.get? i =
        some (backoff * 2 ^ i / 1000) := by
  have h := retryAux_transient maxRetries backoff tr msg htr (maxRetries + 1) 0
    (by omega) (by omega)
  rw [retryingTranscribe, h]
  simp only [Nat.add_sub_cancel]
  refine ⟨by simp, by simp, ?_⟩
  intro i hi
  rw [List.get?_map, List.get?_range hi]
  show some (2 ^ (0 + i) * backoff / 1000) = some (backoff * 2 ^ i / 1000)
  rw [Nat.zero_add, mul_comm (2 ^ i : ℚ) backoff]

/-- Witness for C3: `max_retries = 2`, `backoff_base_ms = 800`, the call
always raising `rate_limit_exceeded`. -/
theorem c3_retry_law_witness :
    (retryingTranscribe 2 800 fun _ => .error "rate_limit_exceeded".data).calls = 2 + 1 ∧
    (retryingTranscribe 2 800 fun _ => .error "rate_limit_exceeded".data).sleeps.length = 2 ∧
    ∀ i, i < 2 →
      (retryingTranscribe 2 800 fun _ => .error "rate_limit_exceeded".data).sleeps.get? i =
        some (800 * 2 ^ i / 1000) :=
  c3_retry_law 2 800 _ (fun _ => "rate_limit_exceeded".data)
    (fun _ => ⟨rfl, by show isTransientMsg "rate_limit_exceeded".data = true; decide⟩)

/-! ## Claims C4 and C6: the scheduler -/

lemma transcribeManifest_fold (maxRetries : ℕ) (backoff : ℚ)
    (tr : ℕ → ℕ → Except PyStr (Option PyStr × ℕ)) :
    ∀ (l acc : List ChunkRec) (x y : ℕ),
      l.foldl (fun (st : List ChunkRec × ℕ × ℕ) (c : ChunkRec) =>
        if c.status = .pending then
          let p := workChunk maxRetries backoff tr c
          (st.1 ++ [p.1], st.2.1 + p.2, st.2.2 + 1)
        else (st.1 ++ [c], st.2.1, st.2.2)) (acc, x, y) =
      (acc ++ l.map (fun c => if c.status = .pending
          then (workChunk maxRetries backoff tr c).1 else c),
        x + (l.map fun c => if c.status = .pending
          then (workChunk maxRetries backoff tr c).2 else 0).sum,
        y + l.countP fun c => c.status = .pending) := by
  intro l
  induction l with
  | nil => intro acc x y; simp
  | cons c t ih =>
    intro acc x y
    rw [List.foldl_cons]
    by_cases hc : c.status = .pending
    · rw [if_pos hc, ih]
      simp [hc, List.countP_cons]
      exact ⟨by omega, by omega⟩
    · rw [if_neg hc, ih]
      simp [hc, List.countP_cons]

lemma transcribeManifest_spec (maxRetries : ℕ) (backoff : ℚ)
    (tr : ℕ → ℕ → Except PyStr (Option PyStr × ℕ)) (m : Manifest) :
    transcribeManifest maxRetries backoff tr m =
      ⟨⟨m.chunks.map fun c => if c.status = .pending
          then (workChunk maxRetries backoff tr c).1 else c⟩,
        (m.chunks.map fun c => if c.status = .pending
          then (workChunk maxRetries backoff tr c).2 else 0).sum,
        m.chunks.countP fun c => c.status = .pending⟩ := by
  rw [transcribeManifest]
  rw [transcribeManifest_fold maxRetries backoff tr m.chunks [] 0 0]
  simp

/-- Claim C4: re-running the scheduler on a manifest whose chunks are all
terminal (`done` or `error`) performs zero transcription calls, triggers no
per-completion save, and the manifest it finally persists is exactly the
manifest it read — the rewrite is a byte-identical no-op (the serializer is
a deterministic function of the manifest value). -/
theorem c4_scheduler_idempotent (maxRetries : ℕ) (backoff : ℚ)
    (tr : ℕ → ℕ → Except PyStr (Option PyStr × ℕ)) (m : Manifest)
    (hterm : ∀ c ∈ m.chunks, c.status = .done ∨ c.status = .error) :
    transcribeManifest maxRetries backoff tr m = ⟨m, 0, 0⟩ := by
  have hnp : ∀ c ∈ m.chunks, ¬ c.status = .pending := by
    intro c hc h
    rcases hterm c hc with h' | h' <;> rw [h] at h' <;> cases h'
  rw [transcribeManifest_spec]
  have e1 : m.chunks.map (fun c => if c.status = .pending
      then (workChunk maxRetries backoff tr c).1 else c) = m.chunks :=
    map_eq_self_of _ _ (fun c hc => if_neg (hnp c hc))
  have e2 : (m.chunks.map fun c => if c.status = .pending
      then (workChunk maxRetries backoff tr c).2 else 0) =
      m.chunks.map fun _ => 0 :=
    map_congr' _ _ _ (fun c hc => if_neg (hnp c hc))
  have e3 : m.chunks.countP (fun c => c.status = .pending) = 0 :=
    List.countP_eq_zero.mpr (fun c hc => by simpa using hnp c hc)
  rw [e1, e2, e3]
  simp

/-- Witness for C4: a two-chunk manifest with one `done` and one `error`
record. -/
theorem c4_scheduler_idempotent_witness :
    transcribeManifest 3 800 (fun _ _ => .ok (none, 0))
        ⟨[⟨0, some "hi".data, some 5, .done, none⟩,
          ⟨1, none, none, .error, some "boom".data⟩]⟩ =
      ⟨⟨[⟨0, some "hi".data, some 5, .done, none⟩,
          ⟨1, none, none, .error, some "boom".data⟩]⟩, 0, 0⟩ :=
  c4_scheduler_idempotent 3 800 _ _ (by decide)

lemma workChunk_not_pending (maxRetries : ℕ) (backoff : ℚ)
    (tr : ℕ → ℕ → Except PyStr (Option PyStr × ℕ)) (c : ChunkRec) :
    (workChunk maxRetries backoff tr c).1.status ≠ .pending := by
  rw [workChunk]
  rcases (retryingTranscribe maxRetries backoff (tr c.index)).result with e | ⟨t, l⟩
  · intro h; cases h
  · intro h; cases h

/-- Claim C6: a pending chunk whose first transcription call raises a
non-transient error gets exactly one call (no retry, whatever the budget),
ends `error` carrying the message, and the scheduler still drives every
other pending chunk to a terminal status instead of aborting. -/
theorem c6_nontransient_terminal (maxRetries : ℕ) (backoff : ℚ)
    (tr : ℕ → ℕ → Except PyStr (Option PyStr × ℕ)) (m : Manifest)
    (k : ℕ) (c : ChunkRec) (e : PyStr)
    (hk : m.chunks.get? k = some c)
    (hp : c.status = .pending)
    (he : tr c.index 0 = .error e)
    (hnt : isTransientMsg e = false) :
    workChunk maxRetries backoff tr c =
      ({ c with status := .error, errMsg := some e }, 1) ∧
    (transcribeManifest maxRetries backoff tr m).manifest.chunks.get? k =
      some { c with status := .error, errMsg := some e } ∧
    ∀ j cj, m.chunks.get? j = some cj → cj.status = .pending →
      ∃ cj', (transcribeManifest maxRetries backoff tr m).manifest.chunks.get? j =
        some cj' ∧ cj'.status ≠ .pending := by
  have hwork : workChunk maxRetries backoff tr c =
      ({ c with status := .error, errMsg := some e }, 1) := by
    rw [workChunk, retryingTranscribe]
    simp [retryAux, he, hnt]
  refine ⟨hwork, ?_, ?_⟩
  · rw [transcribeManifest_spec]
    show (m.chunks.map _).get? k = _
    rw [List.get?_map, hk]
    simp only [Option.map_some']
    rw [if_pos hp, hwork]
  · intro j cj hj hpj
    rw [transcribeManifest_spec]
    refine ⟨(workChunk maxRetries backoff tr cj).1, ?_, workChunk_not_pending _ _ _ _⟩
    show (m.chunks.map _).get? j = _
    rw [List.get?_map, hj]
    simp only [Option.map_some']
    rw [if_pos hpj]

/-- Witness for C6: two pending chunks; the first chunk's call raises a
non-transient error, the second succeeds. -/
theorem c6_nontransient_terminal_witness :
    workChunk 3 800
        (fun i _ => if i = 0 then .error "boom".data else .ok (some "ok".data, 7))
        ⟨0, none, none, .pending, none⟩ =
      (⟨0, none, none, .error, some "boom".data⟩, 1) ∧
    (transcribeManifest 3 800
        (fun i _ => if i = 0 then .error "boom".data else .ok (some "ok".data, 7))
        ⟨[⟨0, none, none, .pending, none⟩,
          ⟨1, none, none, .pending, none⟩]⟩).manifest.chunks.get? 0 =
      some ⟨0, none, none, .error, some "boom".data⟩ ∧
    ∀ j cj,
      (⟨[⟨0, none, none, .pending, none⟩, ⟨1, none, none, .pending, none⟩]⟩ :
        Manifest).chunks.get? j = some cj → cj.status = .pending →
      ∃ cj', (transcribeManifest 3 800
          (fun i _ => if i = 0 then .error "boom".data else .ok (some "ok".data, 7))
          ⟨[⟨0, none, none, .pending, none⟩,
            ⟨1, none, none, .pending, none⟩]⟩).manifest.chunks.get? j =
        some cj' ∧ cj'.status ≠ .pending :=
  c6_nontransient_terminal 3 800 _ _ 0 ⟨0, none, none, .pending, none⟩
    "boom".data rfl rfl rfl (by decide)

/-! ## The segmentation planner (`segmenter.py`)

Durations and timestamps are Python floats in the source; they are modelled
as exact rationals. The external `ffmpeg` extraction command is an oracle
from the window index to success or a `RuntimeError` message (`_run` raises
on a non-zero exit status). -/

/-- Python's binary `max` on numbers: the second argument wins only when
strictly greater. -/
def pyFloatMax (a b : ℚ) : ℚ := if a < b then b else a

/-- Python's binary `min` on numbers. -/
def pyFloatMin (a b : ℚ) : ℚ := if b < a then b else a

/-- Python's binary `max` on integers (used for `max(1, bitrate_kbps)`). -/
def pyNatMax (a b : ℕ) : ℕ := if a < b then b else a

lemma pyFloatMax_eq_max (a b : ℚ) : pyFloatMax a b = max a b := by
  rw [pyFloatMax, max_def]
  rcases lt_trichotomy a b with h | h | h
  · rw [if_pos h, if_pos h.le]
  · rw [h, if_neg (lt_irrefl b), if_pos le_rfl]
  · rw [if_neg (not_lt.mpr h.le), if_neg (not_le.mpr h)]

lemma pyFloatMin_eq_min (a b : ℚ) : pyFloatMin a b = min a b := by
  rw [pyFloatMin, min_def]
  rcases lt_trichotomy a b with h | h | h
  · rw [if_neg (not_lt.mpr h.le), if_pos h.le]
  · rw [h, if_neg (lt_irrefl b), if_pos le_rfl]
  · rw [if_pos h, if_neg (not_le.mpr h)]

lemma pyNatMax_eq_max (a b : ℕ) : pyNatMax a b = max a b := by
  rw [pyNatMax, Nat.max_def]
  rcases Nat.lt_trichotomy a b with h | h | h
  · rw [if_pos h, if_pos h.le]
  · rw [h, if_neg (lt_irrefl b), if_pos le_rfl]
  · rw [if_neg (Nat.not_lt.mpr h.le), if_neg (Nat.not_le.mpr h)]

/-- `segmenter._safe_chunk_window`: target seconds from target megabytes and
bitrate, guarded to at least 60 seconds and at most `max_chunk_secs`.
`bitrateKbps` is Python's `max(1, int(bit_rate) // 1000)` (integer floor
division). -/
def safeChunkWindow (bitRate : ℕ) (targetChunkMb maxChunkSecs : ℚ) : ℚ :=
  let bitrateKbps : ℕ := pyNatMax 1 (bitRate / 1000)
  let tByMb : ℚ := targetChunkMb * 8000 / (bitrateKbps : ℚ)
  pyFloatMax 60 (pyFloatMin tByMb maxChunkSecs)

/-- The cut-point loop of `plan_and_segment`:
`t = 0.0; while t < duration: start, end = ...; t += window`.
The fuel is the number of remaining loop iterations; `cutPoints` supplies
`⌈duration / window⌉₊`, which is exact (the loop advances `t` by `window`
each iteration and stops once `t ≥ duration`). -/
def cutPointsAux (duration window overlap : ℚ) : ℚ → ℕ → List (ℚ × ℚ)
  | _, 0 => []
  | t, fuel + 1 =>
    if t < duration then
      (pyFloatMax 0 (t - (if 0 < t then overlap else 0)),
        pyFloatMin duration
          (t + window + (if t + window < duration then overlap else 0)))
        :: cutPointsAux duration window overlap (t + window) fuel
    else []

/-- `ceil(duration / window)`: the number of loop iterations. -/
def numChunks (duration window : ℚ) : ℕ := ⌈duration / window⌉₊

/-- The cut points generated by `plan_and_segment`. -/
def cutPoints (duration window overlap : ℚ) : List (ℚ × ℚ) :=
  cutPointsAux duration window overlap 0 (numChunks duration window)

/-- A freshly planned manifest chunk entry (the dict built per window:
index, extraction bounds, recorded overlaps, and the initial
`status="pending", text=None, latency_ms=None, retries=0` fields). -/
structure PlannedChunk where
  index : ℕ
  tStart : ℚ
  tEnd : ℚ
  overlapHead : ℚ
  overlapTail : ℚ
  status : ChunkStatus
  text : Option PyStr
  latencyMs : Option ℕ
  retries : ℕ
deriving DecidableEq

/-- The chunk dict built for window `idx` with extraction bounds `se`. -/
def mkChunk (duration overlap : ℚ) (idx : ℕ) (se : ℚ × ℚ) : PlannedChunk :=
  { index := idx, tStart := se.1, tEnd := se.2,
    overlapHead := if 0 < idx then overlap else 0,
    overlapTail := if se.2 < duration then overlap else 0,
    status := .pending, text := none, latencyMs := none, retries := 0 }

/-- `for idx, (start, end) in enumerate(cut_points)`. -/
def toChunks (duration overlap : ℚ) : ℕ → List (ℚ × ℚ) → List PlannedChunk
  | _, [] => []
  | idx, se :: rest =>
    mkChunk duration overlap idx se :: toChunks duration overlap (idx + 1) rest

/-- The full list of planned chunks for a run. -/
def planWindows (duration window overlap : ℚ) : List PlannedChunk :=
  toChunks duration overlap 0 (cutPoints duration window overlap)

/-- The per-window extraction loop: `_run(cmd)` per chunk in order; the
first non-zero exit raises, aborting the loop. Returns the outcome together
with the number of extraction commands issued. -/
def runExtractions (extract : ℕ → Except PyStr Unit) :
    List PlannedChunk → Except PyStr (List PlannedChunk) × ℕ
  | [] => (.ok [], 0)
  | c :: rest =>
    match extract c.index with
    | .error e => (.error e, 1)
    | .ok _ =>
      let r := runExtractions extract rest
      (r.1.map fun cs => c :: cs, r.2 + 1)

/-- `segmenter.plan_and_segment`: duration guard, window sizing, cut-point
generation, the synchronous per-window extraction calls, and — only after
every extraction succeeded — the manifest write. Returns
(outcome, manifest written to disk if any, number of extraction calls). -/
def planAndSegment (duration : ℚ) (bitRate : ℕ)
    (targetChunkMb maxChunkSecs overlap : ℚ)
    (extract : ℕ → Except PyStr Unit) :
    Except PyStr (List PlannedChunk) × Option (List PlannedChunk) × ℕ :=
  if duration ≤ 0 then
    (.error "Could not determine audio duration.".data, none, 0)
  else
    let w := safeChunkWindow bitRate targetChunkMb maxChunkSecs
    let chunks := planWindows duration w overlap
    match runExtractions extract chunks with
    | (.error e, n) => (.error e, none, n)
    | (.ok cs, n) => (.ok cs, some cs, n)

/-! ## Closed form of the cut-point loop -/

/-- The extraction bounds the loop computes on its iteration with `t = k·window`. -/
def chunkPoint (duration window overlap : ℚ) (k : ℕ) : ℚ × ℚ :=
  (pyFloatMax 0 ((k : ℚ) * window - (if 0 < k then overlap else 0)),
    pyFloatMin duration ((k : ℚ) * window + window +
      (if (k : ℚ) * window + window < duration then overlap else 0)))

lemma lt_numChunks_iff (d w : ℚ) (hw : 0 < w) (k : ℕ) :
    k < numChunks d w ↔ (k : ℚ) * w < d := by
  rw [numChunks, Nat.lt_ceil, lt_div_iff hw]

lemma cutPointsAux_closed (d w ov : ℚ) (hw : 0 < w) :
    ∀ (fuel k : ℕ), numChunks d w ≤ k + fuel →
      cutPointsAux d w ov ((k : ℚ) * w) fuel =
        (List.range (numChunks d w - k)).map fun j => chunkPoint d w ov (k + j) := by
  intro fuel
  induction fuel with
  | zero =>
    intro k h
    rw [Nat.sub_eq_zero_of_le (by omega)]
    rfl
  | succ f ih =>
    intro k h
    by_cases hk : k < numChunks d w
    · have hkd : (k : ℚ) * w < d := (lt_numChunks_iff d w hw k).mp hk
      have hif : (if 0 < (k : ℚ) * w then ov else 0) = (if 0 < k then ov else 0) := by
        rcases Nat.eq_zero_or_pos k with h0 | h0
        · subst h0; norm_num
        · rw [if_pos h0, if_pos (mul_pos (by exact_mod_cast h0) hw)]
      have hstep : (k : ℚ) * w + w = ((k + 1 : ℕ) : ℚ) * w := by push_cast; ring
      rw [cutPointsAux, if_pos hkd]
      have hn : numChunks d w - k = (numChunks d w - (k + 1)) + 1 := by omega
      rw [hn, List.range_succ_eq_map, List.map_cons, List.map_map]
      rw [hstep, ih (k + 1) (by omega)]
      congr 1
      · simp only [Nat.add_zero, chunkPoint, hif, hstep]
      · refine map_congr' _ _ _ (fun j _ => ?_)
        show chunkPoint d w ov (k + 1 + j) = chunkPoint d w ov (k + Nat.succ j)
        congr 1
        omega
    · have hkd : ¬ ((k : ℚ) * w < d) := fun hlt =>
        hk ((lt_numChunks_iff d w hw k).mpr hlt)
      rw [cutPointsAux, if_neg hkd, Nat.sub_eq_zero_of_le (by omega)]
      rfl

lemma cutPoints_closed (d w ov : ℚ) (hw : 0 < w) :
    cutPoints d w ov = (List.range (numChunks d w)).map fun j => chunkPoint d w ov j := by
  rw [cutPoints]
  have h := cutPointsAux_closed d w ov hw (numChunks d w) 0 (by omega)
  rw [Nat.cast_zero, zero_mul] at h
  rw [h, Nat.sub_zero]
  exact map_congr' _ _ _ (fun j _ => by rw [Nat.zero_add])

lemma toChunks_get? (d ov : ℚ) :
    ∀ (ps : List (ℚ × ℚ)) (i k : ℕ),
      (toChunks d ov i ps).get? k = (ps.get? k).map fun se => mkChunk d ov (i + k) se := by
  intro ps
  induction ps with
  | nil => intro i k; simp [toChunks]
  | cons se rest ih =>
    intro i k
    rcases k with _ | k'
    · simp [toChunks]
    · show (mkChunk d ov i se :: toChunks d ov (i + 1) rest).get? (k' + 1) = _
      rw [List.get?_cons_succ, ih (i + 1) k']
      have : i + 1 + k' = i + (k' + 1) := by omega
      rw [this]
      rfl

lemma toChunks_length (d ov : ℚ) :
    ∀ (ps : List (ℚ × ℚ)) (i : ℕ), (toChunks d ov i ps).length = ps.length := by
  intro ps
  induction ps with
  | nil => intro i; rfl
  | cons se rest ih =>
    intro i
    show (toChunks d ov (i + 1) rest).length + 1 = rest.length + 1
    rw [ih (i + 1)]

lemma planWindows_length (d w ov : ℚ) (hw : 0 < w) :
    (planWindows d w ov).length = numChunks d w := by
  rw [planWindows, toChunks_length, cutPoints_closed d w ov hw]
  simp

lemma planWindows_get? (d w ov : ℚ) (hw : 0 < w) (k : ℕ) (hk : k < numChunks d w) :
    (planWindows d w ov).get? k = some (mkChunk d ov k (chunkPoint d w ov k)) := by
  rw [planWindows, toChunks_get?, cutPoints_closed d w ov hw]
  rw [List.get?_map, List.get?_range hk]
  simp

lemma safeChunkWindow_ge_60 (bitRate : ℕ) (targetChunkMb maxChunkSecs : ℚ) :
    60 ≤ safeChunkWindow bitRate targetChunkMb maxChunkSecs := by
  rw [safeChunkWindow]
  show (60 : ℚ) ≤ pyFloatMax 60 _
  rw [pyFloatMax_eq_max]
  exact le_max_left _ _

lemma safeChunkWindow_pos (bitRate : ℕ) (targetChunkMb maxChunkSecs : ℚ) :
    0 < safeChunkWindow bitRate targetChunkMb maxChunkSecs :=
  lt_of_lt_of_le (by norm_num) (safeChunkWindow_ge_60 bitRate targetChunkMb maxChunkSecs)

/-! ## Claim C7: window sizing and chunk count -/

/-- The spec's "clamped to the closed interval `[lo, hi]`". -/
def clampToInterval (x lo hi : ℚ) : ℚ := min hi (max lo x)

/-- Claim C7: for `bit_rate ≥ 1` and a valid policy, the planner's fixed
window equals `target_chunk_mb * 8000 / max(1, bit_rate // 1000)` clamped to
`[60, max_chunk_secs]`, and for every positive duration the number of
produced chunks is `ceil(duration / window)`. -/
theorem c7_window_sizing_and_count (bitRate : ℕ)
    (targetChunkMb maxChunkSecs overlap duration : ℚ)
    (hbr : 1 ≤ bitRate) (htm : 1 ≤ targetChunkMb)
    (hmc1 : 60 ≤ maxChunkSecs) (hmc2 : maxChunkSecs ≤ 3600)
    (hov1 : 0 ≤ overlap) (hov2 : overlap ≤ 30) (hd : 0 < duration) :
    safeChunkWindow bitRate targetChunkMb maxChunkSecs =
      clampToInterval
        (targetChunkMb * 8000 / ((pyNatMax 1 (bitRate / 1000) : ℕ) : ℚ))
        60 maxChunkSecs ∧
    (planWindows duration (safeChunkWindow bitRate targetChunkMb maxChunkSecs)
        overlap).length =
      ⌈duration / safeChunkWindow bitRate targetChunkMb maxChunkSecs⌉₊ := by
  constructor
  · rw [safeChunkWindow, clampToInterval, pyFloatMax_eq_max, pyFloatMin_eq_min]
    rw [max_min_distrib_left, max_eq_right hmc1, min_comm]
  · exact planWindows_length duration _ overlap (safeChunkWindow_pos _ _ _)

/-- Witness for C7 at `bit_rate = 8 Mb/s`, `target 16 MB`, `max 900 s`,
`overlap 5 s`, `duration 125 s`. -/
theorem c7_window_sizing_and_count_witness :
    safeChunkWindow 8000000 16 900 =
      clampToInterval (16 * 8000 / ((pyNatMax 1 (8000000 / 1000) : ℕ) : ℚ))
        60 900 ∧
    (planWindows 125 (safeChunkWindow 8000000 16 900) 5).length =
      ⌈(125 : ℚ) / safeChunkWindow 8000000 16 900⌉₊ :=
  c7_window_sizing_and_count 8000000 16 900 5 125 (by decide) (by decide)
    (by decide) (by decide) (by decide) (by decide) (by decide)

/-! ## Claim C5: extraction failure aborts planning -/

lemma runExtractions_fail (extract : ℕ → Except PyStr Unit) (e : PyStr) :
    ∀ (cs : List PlannedChunk) (k : ℕ) (c : PlannedChunk),
      cs.get? k = some c → extract c.index = .error e →
      (∀ j cj, j < k → cs.get? j = some cj → (extract cj.index).isOk = true) →
      runExtractions extract cs = (.error e, k + 1) := by
  intro cs
  induction cs with
  | nil => intro k c hk _ _; simp at hk
  | cons c0 rest ih =>
    intro k c hk hfail hok
    rcases k with _ | k'
    · rw [List.get?_cons_zero] at hk
      injection hk with hk
      subst hk
      rw [runExtractions, hfail]
    · rw [List.get?_cons_succ] at hk
      have h0 : (extract c0.index).isOk = true :=
        hok 0 c0 (by omega) List.get?_cons_zero
      rcases hx : extract c0.index with e' | u
      · rw [hx] at h0; simp [Except.isOk, Except.toBool] at h0
      · simp only [runExtractions, hx]
        rw [ih k' c hk hfail
          (fun j cj hj hcj => hok (j + 1) cj (by omega)
            (by rwa [List.get?_cons_succ]))]
        rfl

/-- Claim C5: if the extraction call for window `k` fails (and the earlier
ones succeed), `plan_and_segment` propagates that error, writes no manifest
at all, and issues exactly `k + 1` extraction commands — no chunk beyond the
failing one is produced. -/
theorem c5_extraction_failure_aborts (duration : ℚ) (bitRate : ℕ)
    (targetChunkMb maxChunkSecs overlap : ℚ) (extract : ℕ → Except PyStr Unit)
    (e : PyStr) (k : ℕ)
    (hd : 0 < duration)
    (hk : k < numChunks duration (safeChunkWindow bitRate targetChunkMb maxChunkSecs))
    (hfail : extract k = .error e)
    (hok : ∀ j, j < k → (extract j).isOk = true) :
    planAndSegment duration bitRate targetChunkMb maxChunkSecs overlap extract =
      (.error e, none, k + 1) := by
  have hwpos := safeChunkWindow_pos bitRate targetChunkMb maxChunkSecs
  have hrun : runExtractions extract
      (planWindows duration (safeChunkWindow bitRate targetChunkMb maxChunkSecs)
        overlap) = (.error e, k + 1) := by
    refine runExtractions_fail extract e _ k
      (mkChunk duration overlap k
        (chunkPoint duration (safeChunkWindow bitRate targetChunkMb maxChunkSecs)
          overlap k))
      (planWindows_get? _ _ _ hwpos k hk) hfail ?_
    intro j cj hj hcj
    rw [planWindows_get? _ _ _ hwpos j (by omega)] at hcj
    injection hcj with hcj
    rw [← hcj]
    exact hok j hj
  simp only [planAndSegment, if_neg (not_le.mpr hd), hrun]

/-- Witness for C5: the very first extraction call fails. -/
theorem c5_extraction_failure_aborts_witness :
    planAndSegment 125 8000000 16 900 5 (fun _ => .error "ffmpeg failed".data) =
      (.error "ffmpeg failed".data, none, 0 + 1) :=
  c5_extraction_failure_aborts 125 8000000 16 900 5 _ "ffmpeg failed".data 0
    (by decide)
    (Nat.ceil_pos.mpr (div_pos (by decide) (safeChunkWindow_pos 8000000 16 900)))
    rfl
    (fun j hj => absurd hj (Nat.not_lt_zero j))

/-! ## Claim C2: plan geometry -/

/-- Claim C2 counterexample: with bit_rate 8 Mb/s, target 16 MB,
max_chunk_secs 900 (so the window is 60 s), overlap 5 s and duration 125 s,
the plan has three chunks, and the *interior* chunk 1 — whose pushed end
`120 + 5` is clipped to the duration 125 — records `overlap_tail = 0`, not
`overlap_secs = 5` as the claim requires of every interior boundary. -/
theorem c2_counterexample :
    safeChunkWindow 8000000 16 900 = 60 ∧
    (planWindows 125 (safeChunkWindow 8000000 16 900) 5).length = 3 ∧
    (planWindows 125 (safeChunkWindow 8000000 16 900) 5).get? 1 =
      some ⟨1, 55, 125, 5, 0, .pending, none, none, 0⟩ := by
  have hw : safeChunkWindow 8000000 16 900 = 60 := by
    simp [safeChunkWindow, pyNatMax, pyFloatMin, pyFloatMax]
    norm_num
  have hn : numChunks 125 60 = 3 := by
    rw [numChunks, Nat.ceil_eq_iff (by norm_num)]
    norm_num
  refine ⟨hw, ?_, ?_⟩ <;> rw [hw]
  · rw [planWindows_length 125 60 5 (by norm_num), hn]
  · rw [planWindows_get? 125 60 5 (by norm_num) 1 (by rw [hn]; omega)]
    rw [mkChunk, chunkPoint]
    norm_num [pyFloatMax_eq_max, pyFloatMin_eq_min]

/-- Claim C2 (amended): for every valid policy, bitrate and positive
duration, writing `w` for the planner window and `n = ⌈duration/w⌉` — the
plan has `n ≥ 1` chunks ordered by contiguous 0-based index; chunk `k`
starts at `max(0, k·w − overlap)` for `k > 0` (the clip at 0 never binds)
and at 0 for `k = 0`; every chunk except the last has its end pushed
forward by `overlap_secs` and clipped to the duration, while the last ends
exactly at the duration, so consecutive windows overlap and the windows
cover `[0, duration]`; `overlap_head` records `overlap_secs` exactly for
the non-first chunks, but `overlap_tail` records `overlap_secs` only when
the chunk's pushed, clipped end stays strictly below the duration — an
interior chunk whose pushed end reaches the duration records
`overlap_tail = 0`, so the original claim's "every interior boundary is
recorded as `overlap_secs` in both directions" fails there. -/
theorem c2_plan_geometry (bitRate : ℕ)
    (targetChunkMb maxChunkSecs overlap duration w : ℚ) (n : ℕ)
    (hw : w = safeChunkWindow bitRate targetChunkMb maxChunkSecs)
    (hn : n = numChunks duration w)
    (hbr : 1 ≤ bitRate) (htm : 1 ≤ targetChunkMb)
    (hmc1 : 60 ≤ maxChunkSecs) (hmc2 : maxChunkSecs ≤ 3600)
    (hov1 : 0 ≤ overlap) (hov2 : overlap ≤ 30) (hd : 0 < duration) :
    (planWindows duration w overlap).length = n ∧
    1 ≤ n ∧
    (∀ k, k < n →
      ∃ c, (planWindows duration w overlap).get? k = some c ∧
        c.index = k ∧
        c.tStart = pyFloatMax 0 ((k : ℚ) * w - (if 0 < k then overlap else 0)) ∧
        c.tEnd = pyFloatMin duration ((k : ℚ) * w + w +
          (if (k : ℚ) * w + w < duration then overlap else 0)) ∧
        c.overlapHead = (if 0 < k then overlap else 0) ∧
        c.overlapTail = (if c.tEnd < duration then overlap else 0) ∧
        (0 < k → c.tStart = (k : ℚ) * w - overlap) ∧
        (k + 1 < n → c.tEnd = pyFloatMin duration ((k : ℚ) * w + w + overlap)) ∧
        (k + 1 = n → c.tEnd = duration)) ∧
    (∀ k c c', k + 1 < n →
      (planWindows duration w overlap).get? k = some c →
      (planWindows duration w overlap).get? (k + 1) = some c' →
      c'.tStart ≤ c.tEnd ∧ c.tStart < c'.tStart) ∧
    (∀ c0, (planWindows duration w overlap).get? 0 = some c0 →
      c0.tStart = 0 ∧ c0.overlapHead = 0) := by
  have hw60 : 60 ≤ w := by rw [hw]; exact safeChunkWindow_ge_60 _ _ _
  have hwpos : 0 < w := by linarith
  have hovw : overlap < w := by linarith
  have hstart_pos : ∀ k : ℕ, 0 < k →
      pyFloatMax 0 ((k : ℚ) * w - overlap) = (k : ℚ) * w - overlap := by
    intro k hk0
    have h1 : (1 : ℚ) ≤ (k : ℚ) := by exact_mod_cast hk0
    have h2 : w ≤ (k : ℚ) * w := le_mul_of_one_le_left (le_of_lt hwpos) h1
    rw [pyFloatMax_eq_max, max_eq_right (by linarith)]
  refine ⟨?_, ?_, ?_, ?_, ?_⟩
  · rw [hn]; exact planWindows_length duration w overlap hwpos
  · rw [hn]; exact Nat.ceil_pos.mpr (div_pos hd hwpos)
  · intro k hk
    rw [hn] at hk
    refine ⟨mkChunk duration overlap k (chunkPoint duration w overlap k),
      planWindows_get? duration w overlap hwpos k hk,
      rfl, rfl, rfl, rfl, rfl, ?_, ?_, ?_⟩
    · intro hk0
      show pyFloatMax 0 ((k : ℚ) * w - (if 0 < k then overlap else 0)) = _
      rw [if_pos hk0]
      exact hstart_pos k hk0
    · intro hk1
      rw [hn] at hk1
      have hlt : ((k + 1 : ℕ) : ℚ) * w < duration :=
        (lt_numChunks_iff duration w hwpos (k + 1)).mp hk1
      have hlt' : (k : ℚ) * w + w < duration := by push_cast at hlt; linarith
      show pyFloatMin duration ((k : ℚ) * w + w +
        (if (k : ℚ) * w + w < duration then overlap else 0)) = _
      rw [if_pos hlt']
    · intro hk1
      rw [hn] at hk1
      have hge : duration / w ≤ ((k + 1 : ℕ) : ℚ) := by
        rw [hk1]; exact Nat.le_ceil _
      have hge' : duration ≤ ((k + 1 : ℕ) : ℚ) * w := by
        rw [div_le_iff hwpos] at hge; linarith
      have hge'' : duration ≤ (k : ℚ) * w + w := by push_cast at hge'; linarith
      show pyFloatMin duration ((k : ℚ) * w + w +
        (if (k : ℚ) * w + w < duration then overlap else 0)) = _
      rw [if_neg (not_lt.mpr hge''), add_zero, pyFloatMin_eq_min,
        min_eq_left hge'']
  · intro k c c' hk1 hc hc'
    rw [hn] at hk1
    rw [planWindows_get? duration w overlap hwpos k (by omega)] at hc
    rw [planWindows_get? duration w overlap hwpos (k + 1) hk1] at hc'
    injection hc with hc
    injection hc' with hc'
    subst hc; subst hc'
    have hlt : ((k + 1 : ℕ) : ℚ) * w < duration :=
      (lt_numChunks_iff duration w hwpos (k + 1)).mp hk1
    have hlt' : (k : ℚ) * w + w < duration := by push_cast at hlt; linarith
    have hs' : pyFloatMax 0 (((k + 1 : ℕ) : ℚ) * w -
        (if 0 < k + 1 then overlap else 0)) = ((k + 1 : ℕ) : ℚ) * w - overlap := by
      rw [if_pos (Nat.succ_pos k)]
      exact hstart_pos (k + 1) (Nat.succ_pos k)
    constructor
    · show pyFloatMax 0 (((k + 1 : ℕ) : ℚ) * w - (if 0 < k + 1 then overlap else 0)) ≤
        pyFloatMin duration ((k : ℚ) * w + w +
          (if (k : ℚ) * w + w < duration then overlap else 0))
      rw [hs', if_pos hlt', pyFloatMin_eq_min]
      refine le_min ?_ ?_ <;> push_cast <;> push_cast at hlt <;> linarith
    · show pyFloatMax 0 ((k : ℚ) * w - (if 0 < k then overlap else 0)) <
        pyFloatMax 0 (((k + 1 : ℕ) : ℚ) * w - (if 0 < k + 1 then overlap else 0))
      rw [hs']
      rcases Nat.eq_zero_or_pos k with hk0 | hk0
      · subst hk0
        rw [if_neg (lt_irrefl 0), pyFloatMax_eq_max]
        push_cast
        rw [zero_mul, sub_zero, max_self]
        linarith
      · rw [if_pos hk0, hstart_pos k hk0]
        have h1 : (k : ℚ) + 1 ≤ ((k + 1 : ℕ) : ℚ) := by push_cast; linarith
        push_cast
        nlinarith
  · intro c0 hc0
    have h1 : 1 ≤ numChunks duration w := Nat.ceil_pos.mpr (div_pos hd hwpos)
    rw [planWindows_get? duration w overlap hwpos 0 (by omega)] at hc0
    injection hc0 with hc0
    subst hc0
    constructor
    · show pyFloatMax 0 (((0 : ℕ) : ℚ) * w - (if 0 < 0 then overlap else 0)) = 0
      rw [if_neg (lt_irrefl 0), pyFloatMax_eq_max]
      push_cast
      rw [zero_mul, sub_zero, max_self]
    · show (if 0 < 0 then overlap else 0) = 0
      rw [if_neg (lt_irrefl 0)]

/-- Witness for C2 (amended) at bit_rate 8 Mb/s, target 16 MB, max 900 s,
overlap 5 s, duration 125 s. -/
theorem c2_plan_geometry_witness :
    (planWindows 125 (safeChunkWindow 8000000 16 900) 5).length =
      numChunks 125 (safeChunkWindow 8000000 16 900) ∧
    1 ≤ numChunks 125 (safeChunkWindow 8000000 16 900) ∧
    (∀ k, k < numChunks 125 (safeChunkWindow 8000000 16 900) →
      ∃ c, (planWindows 125 (safeChunkWindow 8000000 16 900) 5).get? k = some c ∧
        c.index = k ∧
        c.tStart = pyFloatMax 0 ((k : ℚ) * safeChunkWindow 8000000 16 900 -
          (if 0 < k then 5 else 0)) ∧
        c.tEnd = pyFloatMin 125 ((k : ℚ) * safeChunkWindow 8000000 16 900 +
          safeChunkWindow 8000000 16 900 +
          (if (k : ℚ) * safeChunkWindow 8000000 16 900 +
            safeChunkWindow 8000000 16 900 < 125 then 5 else 0)) ∧
        c.overlapHead = (if 0 < k then 5 else 0) ∧
        c.overlapTail = (if c.tEnd < 125 then 5 else 0) ∧
        (0 < k → c.tStart = (k : ℚ) * safeChunkWindow 8000000 16 900 - 5) ∧
        (k + 1 < numChunks 125 (safeChunkWindow 8000000 16 900) →
          c.tEnd = pyFloatMin 125 ((k : ℚ) * safeChunkWindow 8000000 16 900 +
            safeChunkWindow 8000000 16 900 + 5)) ∧
        (k + 1 = numChunks 125 (safeChunkWindow 8000000 16 900) →
          c.tEnd = 125)) ∧
    (∀ k c c', k + 1 < numChunks 125 (safeChunkWindow 8000000 16 900) →
      (planWindows 125 (safeChunkWindow 8000000 16 900) 5).get? k = some c →
      (planWindows 125 (safeChunkWindow 8000000 16 900) 5).get? (k + 1) = some c' →
      c'.tStart ≤ c.tEnd ∧ c.tStart < c'.tStart) ∧
    (∀ c0, (planWindows 125 (safeChunkWindow 8000000 16 900) 5).get? 0 = some c0 →
      c0.tStart = 0 ∧ c0.overlapHead = 0) :=
  c2_plan_geometry 8000000 16 900 5 125 (safeChunkWindow 8000000 16 900)
    (numChunks 125 (safeChunkWindow 8000000 16 900)) rfl rfl
    (by decide) (by decide) (by decide) (by decide) (by decide) (by decide)
    (by decide)

/-! ## `difflib.SequenceMatcher` (`isjunk=None`, `autojunk=False`)

`_dedup_join` builds `SequenceMatcher(None, tail, head, autojunk=False)`
and takes `max(sm.get_opcodes(), key=lambda op: (op[0] == "equal",
op[3]-op[2]))`. With no junk function and `autojunk=False`, `b2j` maps each
character to all its positions in `b`, `bjunk` and `bpopular` are empty, and
the two junk-extension loops of `find_longest_match` never fire. -/

/-- Ascending positions of `c` in a list, starting the count at `i`. -/
def indicesOfFrom (c : Char) : PyStr → ℕ → List ℕ
  | [], _ => []
  | d :: rest, i =>
    if d = c then i :: indicesOfFrom c rest (i + 1)
    else indicesOfFrom c rest (i + 1)

/-- `b2j[c]`: the ascending list of positions of `c` in `b` (absent keys
give the empty list, Python's `b2j.get(a[i], nothing)`). -/
def b2j (b : PyStr) (c : Char) : List ℕ := indicesOfFrom c b 0

/-- One step of `find_longest_match`'s inner loop: one matching position
`j` of `a[i]` in `b`. `j2lenOld` is the previous row's dict as a total
function (0 for absent keys; Python's `j2len.get(j-1, 0)` at `j = 0` looks
up the absent key `-1`, hence the `j = 0` guard). The state is
`(newj2len, besti, bestj, bestsize)`; `i + 1 - k` is Python's `i-k+1`
(`k ≤ i + 1` always holds, so ℕ subtraction agrees with ℤ). -/
def flmInnerStep (i : ℕ) (j2lenOld : ℕ → ℕ)
    (st : (ℕ → ℕ) × ℕ × ℕ × ℕ) (j : ℕ) : (ℕ → ℕ) × ℕ × ℕ × ℕ :=
  let k := (if j = 0 then 0 else j2lenOld (j - 1)) + 1
  let newj2len := fun j' => if j' = j then k else st.1 j'
  if st.2.2.2 < k then (newj2len, i + 1 - k, j + 1 - k, k)
  else (newj2len, st.2.1, st.2.2.1, st.2.2.2)

/-- One step of the outer loop of `find_longest_match` (one `i`): Python
`continue`s while `j < blo` and `break`s at the first `j ≥ bhi`; on the
ascending position list that is `takeWhile (· < bhi)` then
`filter (blo ≤ ·)`. Every row starts from a fresh empty `newj2len`. -/
def flmOuterStep (a b : PyStr) (blo bhi : ℕ)
    (st : (ℕ → ℕ) × ℕ × ℕ × ℕ) (i : ℕ) : (ℕ → ℕ) × ℕ × ℕ × ℕ :=
  let js := ((b2j b (a.getD i 'a')).takeWhile fun j => j < bhi).filter
    fun j => blo ≤ j
  js.foldl (flmInnerStep i st.1) ((fun _ => 0), st.2.1, st.2.2.1, st.2.2.2)

/-- The dynamic-programming loop of `find_longest_match`. -/
def flmMain (a b : PyStr) (alo ahi blo bhi : ℕ) : ℕ × ℕ × ℕ :=
  let st := (List.range' alo (ahi - alo)).foldl (flmOuterStep a b blo bhi)
    ((fun _ => 0), alo, blo, 0)
  (st.2.1, st.2.2.1, st.2.2.2)

/-- First non-junk extension loop of `find_longest_match`
(`while besti > alo and bestj > blo and a[besti-1] == b[bestj-1]`). The
fuel bounds the iterations; `besti` strictly decreases, so passing `besti`
itself as fuel is exact. -/
def extendFront (a b : PyStr) (alo blo : ℕ) :
    ℕ → ℕ → ℕ → ℕ → ℕ × ℕ × ℕ
  | 0, besti, bestj, bestsize => (besti, bestj, bestsize)
  | fuel + 1, besti, bestj, bestsize =>
    if alo < besti ∧ blo < bestj ∧
        a.getD (besti - 1) 'a' = b.getD (bestj - 1) 'a' then
      extendFront a b alo blo fuel (besti - 1) (bestj - 1) (bestsize + 1)
    else (besti, bestj, bestsize)

/-- Second non-junk extension loop
(`while besti+bestsize < ahi and bestj+bestsize < bhi and
a[besti+bestsize] == b[bestj+bestsize]`); fuel `ahi` is enough since
`besti + bestsize` strictly increases and stays below `ahi`. -/
def extendBack (a b : PyStr) (ahi bhi : ℕ) :
    ℕ → ℕ → ℕ → ℕ → ℕ
  | 0, _, _, bestsize => bestsize
  | fuel + 1, besti, bestj, bestsize =>
    if besti + bestsize < ahi ∧ bestj + bestsize < bhi ∧
        a.getD (besti + bestsize) 'a' = b.getD (bestj + bestsize) 'a' then
      extendBack a b ahi bhi fuel besti bestj (bestsize + 1)
    else bestsize

/-- `SequenceMatcher.find_longest_match` on junk-free input: the DP loop,
then the two non-junk extension loops (the junk loops never execute since
`bjunk` is empty). -/
def findLongestMatch (a b : PyStr) (alo ahi blo bhi : ℕ) : ℕ × ℕ × ℕ :=
  let m := flmMain a b alo ahi blo bhi
  let f := extendFront a b alo blo m.1 m.1 m.2.1 m.2.2
  let size := extendBack a b ahi bhi ahi f.1 f.2.1 f.2.2
  (f.1, f.2.1, size)

/-- The `get_matching_blocks` queue loop. Python pops from the end of the
list and appends the left then the right subrange; with the stack head as
the list end, the right subrange is processed first. The fuel
`la + lb + 1` bounds the iteration count: each pop removes an entry of
measure `(ahi−alo) + (bhi−blo) + 1` and pushes entries of strictly smaller
total measure (a nonempty match of size `k ≥ 1` is removed). -/
def matchBlocksAux (a b : PyStr) :
    ℕ → List (ℕ × ℕ × ℕ × ℕ) → List (ℕ × ℕ × ℕ) → List (ℕ × ℕ × ℕ)
  | 0, _, acc => acc
  | _ + 1, [], acc => acc
  | fuel + 1, (alo, ahi, blo, bhi) :: queue, acc =>
    let m := findLongestMatch a b alo ahi blo bhi
    let i := m.1
    let j := m.2.1
    let k := m.2.2
    if k ≠ 0 then
      let q1 := if alo < i ∧ blo < j then [(alo, i, blo, j)] else []
      let q2 := if i + k < ahi ∧ j + k < bhi then [(i + k, ahi, j + k, bhi)] else []
      matchBlocksAux a b fuel (q2 ++ q1 ++ queue) ((i, j, k) :: acc)
    else matchBlocksAux a b fuel queue acc

/-- Lexicographic order on block triples (Python's `list.sort()` on
3-tuples of ints). -/
def tripleLe (x y : ℕ × ℕ × ℕ) : Bool :=
  decide (x.1 < y.1) ||
    (decide (x.1 = y.1) &&
      (decide (x.2.1 < y.2.1) ||
        (decide (x.2.1 = y.2.1) && decide (x.2.2 ≤ y.2.2))))

def insertTriple (x : ℕ × ℕ × ℕ) : List (ℕ × ℕ × ℕ) → List (ℕ × ℕ × ℕ)
  | [] => [x]
  | y :: ys => if tripleLe x y then x :: y :: ys else y :: insertTriple x ys

/-- `matching_blocks.sort()`: the triples are pairwise distinct, so any
sort yields Python's result. -/
def sortTriples : List (ℕ × ℕ × ℕ) → List (ℕ × ℕ × ℕ)
  | [] => []
  | x :: xs => insertTriple x (sortTriples xs)

/-- The adjacent-block collapse loop of `get_matching_blocks`
(`i1 = j1 = k1 = 0; for i2, j2, k2 in matching_blocks: ...`). -/
def collapseAdjacent (blocks : List (ℕ × ℕ × ℕ)) : List (ℕ × ℕ × ℕ) :=
  let st := blocks.foldl
    (fun (st : (ℕ × ℕ × ℕ) × List (ℕ × ℕ × ℕ)) blk =>
      if st.1.1 + st.1.2.2 = blk.1 ∧ st.1.2.1 + st.1.2.2 = blk.2.1 then
        ((st.1.1, st.1.2.1, st.1.2.2 + blk.2.2), st.2)
      else (blk, if st.1.2.2 ≠ 0 then st.2 ++ [st.1] else st.2))
    ((0, 0, 0), [])
  if st.1.2.2 ≠ 0 then st.2 ++ [st.1] else st.2

/-- `SequenceMatcher.get_matching_blocks`, with the `(la, lb, 0)`
sentinel. -/
def getMatchingBlocks (a b : PyStr) : List (ℕ × ℕ × ℕ) :=
  let raw := matchBlocksAux a b (a.length + b.length + 1)
    [(0, a.length, 0, b.length)] []
  collapseAdjacent (sortTriples raw) ++ [(a.length, b.length, 0)]

/-- difflib opcode tags. -/
inductive OpTag
  | replace
  | delete
  | insert
  | equal
deriving DecidableEq

/-- A `get_opcodes` 5-tuple `(tag, i1, i2, j1, j2)`. -/
structure Opcode where
  tag : OpTag
  i1 : ℕ
  i2 : ℕ
  j1 : ℕ
  j2 : ℕ
deriving DecidableEq

/-- `SequenceMatcher.get_opcodes`. -/
def getOpcodes (a b : PyStr) : List Opcode :=
  let st := (getMatchingBlocks a b).foldl
    (fun (st : (ℕ × ℕ) × List Opcode) blk =>
      let i := st.1.1
      let j := st.1.2
      let ai := blk.1
      let bj := blk.2.1
      let size := blk.2.2
      let answer :=
        if i < ai ∧ j < bj then st.2 ++ [⟨.replace, i, ai, j, bj⟩]
        else if i < ai then st.2 ++ [⟨.delete, i, ai, j, bj⟩]
        else if j < bj then st.2 ++ [⟨.insert, i, ai, j, bj⟩]
        else st.2
      let answer :=
        if size ≠ 0 then answer ++ [⟨.equal, ai, ai + size, bj, bj + size⟩]
        else answer
      ((ai + size, bj + size), answer))
    ((0, 0), [])
  st.2

/-! ## `_dedup_join` and `stitch_outputs` -/

/-- The key `lambda op: (op[0] == "equal", op[3]-op[2])` — note `op[3]` is
`j1` and `op[2]` is `i2`, so the numeric component is `j1 − i2` (in ℤ), not
an opcode length. -/
def opKey (op : Opcode) : Bool × ℤ := (op.tag == OpTag.equal, (op.j1 : ℤ) - (op.i2 : ℤ))

/-- Python tuple comparison `(bool, int) < (bool, int)` (False < True). -/
def keyLt (x y : Bool × ℤ) : Bool :=
  (!x.1 && y.1) || (x.1 == y.1 && decide (x.2 < y.2))

/-- Python `max(ops, key=opKey)`: first element of maximal key; `none`
models the `ValueError` that `max` raises on an empty opcode list (only
possible when both windows are empty). -/
def pyMaxOpcode : List Opcode → Option Opcode
  | [] => none
  | op :: ops =>
    some (ops.foldl (fun best o => if keyLt (opKey best) (opKey o) then o else best) op)

/-- `stitcher._dedup_join prev nxt window min_match`: normalize both texts,
take the trailing `window` of the accumulated text (`prev_n[-window:]`) and
the leading `window` of the next text (`nxt_n[:window]`), pick the best
opcode, and either drop the matched leading run from the window
(`prev_n + head[j2:]` — the text of `nxt_n` beyond the window is not
re-appended!) or fall back to a space join; the result is stripped. -/
def dedupJoin (prev nxt : PyStr) (window minMatch : ℕ) : Option PyStr :=
  let prevN := normalizeText prev
  let nxtN := normalizeText nxt
  let tail := prevN.drop (prevN.length - window)
  let head := nxtN.take window
  match pyMaxOpcode (getOpcodes tail head) with
  | none => none
  | some op =>
    if op.tag = .equal ∧ minMatch ≤ op.i2 - op.i1 then
      some (pyStrip (prevN ++ head.drop op.j2))
    else some (pyStrip (prevN ++ ' ' :: nxtN))

/-- `_dedup_join` at its default `window=500`, `min_match=30`. -/
def dedupJoinDefault (prev nxt : PyStr) : Option PyStr := dedupJoin prev nxt 500 30

/-- One iteration of the `merged_text` loop of `stitch_outputs` for the
chunk at position `i` with text `t` (`c.get("text") or ""`, empty for
missing): an empty text leaves the accumulated text unchanged, the chunk at
manifest position 0 replaces it by its normalization, any later chunk is
dedup-joined (`none` propagating `_dedup_join`'s error on empty windows). -/
def stitchStep (i : ℕ) (merged t : PyStr) : Option PyStr :=
  if t = [] then some merged
  else if i = 0 then some (normalizeText t)
  else dedupJoinDefault merged t

/-- The `merged_text` loop of `stitch_outputs` over the per-chunk texts. -/
def stitchAux : ℕ → PyStr → List PyStr → Option PyStr
  | _, merged, [] => some merged
  | i, merged, t :: rest =>
    match stitchStep i merged t with
    | none => none
    | some m => stitchAux (i + 1) m rest

lemma stitchAux_cons (i : ℕ) (merged t : PyStr) (rest : List PyStr) :
    stitchAux i merged (t :: rest) =
      match stitchStep i merged t with
      | none => none
      | some m => stitchAux (i + 1) m rest := rfl

/-- `stitch_outputs`' `fullText`: the merged text, finally stripped. -/
def stitchFullText (texts : List PyStr) : Option PyStr :=
  (stitchAux 0 [] texts).map pyStrip

/-- Number of positions at which `pat` occurs in `s` (used to state
"contains the run exactly once"). -/
def occCount (pat s : PyStr) : ℕ :=
  ((Finset.range (s.length + 1)).filter fun p => pat.isPrefixOf (s.drop p)).card

/-! ## Strings that normalization and stripping leave unchanged -/

lemma pyStrip_fix (l : PyStr)
    (h1 : (l.head?.all fun c => !isPySpace c) = true)
    (h2 : (l.getLast?.all fun c => !isPySpace c) = true) : pyStrip l = l := by
  have h1' : ∀ c, l.head? = some c → isPySpace c = false := by
    intro c hc; rw [hc] at h1; simpa using h1
  have h2' : ∀ c, l.getLast? = some c → isPySpace c = false := by
    intro c hc; rw [hc] at h2; simpa using h2
  unfold pyStrip
  rw [dropWhile_eq_self_of_head?_false _ _ h1',
    dropWhile_eq_self_of_head?_false _ _
      (fun c hc => h2' c (by rwa [head?_reverse_eq_getLast?] at hc)),
    List.reverse_reverse]

lemma normalizeText_fix (l : PyStr) (hne : l ≠ [])
    (hbf : ∀ c ∈ l, isLineBoundary c = false)
    (hzw : zwsp ∉ l)
    (h1 : (l.head?.all fun c => !isPySpace c) = true)
    (h2 : (l.getLast?.all fun c => !isPySpace c) = true) :
    normalizeText l = l := by
  have hcr : '\r' ∉ l := by
    intro h
    have := hbf '\r' h
    rw [isLineBoundary_cr] at this
    cases this
  rw [normalizeText, if_neg hne, normalizePre_fix l hcr hzw]
  show joinLines ((splitlinesAux l []).map pyStrip) = l
  rw [splitlinesAux_no_boundary l hbf [], if_neg (by simp [hne])]
  show joinLines [pyStrip (List.reverse [] ++ l)] = l
  rw [List.reverse_nil, List.nil_append]
  show pyStrip l = l
  exact pyStrip_fix l h1 h2

/-! ## `b2j` on a uniquely-positioned run -/

lemma indicesOfFrom_not_mem (c : Char) :
    ∀ (l : PyStr) (s : ℕ), c ∉ l → indicesOfFrom c l s = [] := by
  intro l
  induction l with
  | nil => intro s _; rfl
  | cons d rest ih =>
    intro s h
    rw [indicesOfFrom,
      if_neg (fun (he : d = c) => h (he ▸ List.mem_cons_self d rest))]
    exact ih (s + 1) (fun hm => h (List.mem_cons_of_mem d hm))

lemma indicesOfFrom_append_unique (c : Char) :
    ∀ (l₁ l₂ : PyStr) (s : ℕ), c ∉ l₁ → c ∉ l₂ →
      indicesOfFrom c (l₁ ++ c :: l₂) s = [s + l₁.length] := by
  intro l₁
  induction l₁ with
  | nil =>
    intro l₂ s _ h₂
    rw [List.nil_append, indicesOfFrom, if_pos rfl,
      indicesOfFrom_not_mem c l₂ (s + 1) h₂]
    simp
  | cons d rest ih =>
    intro l₂ s h₁ h₂
    rw [List.cons_append, indicesOfFrom,
      if_neg (fun (he : d = c) => h₁ (he ▸ List.mem_cons_self d rest)),
      ih l₂ (s + 1) (fun hm => h₁ (List.mem_cons_of_mem d hm)) h₂]
    simp
    omega

lemma b2j_singleton (R Yp : PyStr) (hnd : R.Nodup)
    (hdisj : ∀ c ∈ Yp, c ∉ R) (i : ℕ) (hi : i < R.length) :
    b2j (R ++ Yp) (R.getD i 'a') = [i] := by
  have hdecomp : R = R.take i ++ R.getD i 'a' :: R.drop (i + 1) := by
    rw [List.getD_eq_getElem R 'a' hi]
    rw [← List.drop_eq_getElem_cons hi]
    exact (List.take_append_drop i R).symm
  have hnd' : (R.take i ++ R.getD i 'a' :: R.drop (i + 1)).Nodup := hdecomp ▸ hnd
  rw [List.nodup_append] at hnd'
  have hmem : R.getD i 'a' ∈ R := by
    rw [List.getD_eq_getElem R 'a' hi]
    exact List.getElem_mem hi
  have hnotin1 : R.getD i 'a' ∉ R.take i :=
    fun h => hnd'.2.2 h (List.mem_cons_self _ _)
  have hnotin2 : R.getD i 'a' ∉ R.drop (i + 1) :=
    (List.nodup_cons.mp hnd'.2.1).1
  have hnotin3 : R.getD i 'a' ∉ Yp := fun h => hdisj _ h hmem
  have hsplit : R ++ Yp =
      R.take i ++ R.getD i 'a' :: (R.drop (i + 1) ++ Yp) := by
    conv_lhs => rw [hdecomp]
    simp
  rw [b2j, hsplit, indicesOfFrom_append_unique _ _ _ _ hnotin1
    (fun h => (List.mem_append.mp h).elim hnotin2 hnotin3)]
  rw [List.length_take, Nat.zero_add, min_eq_left (le_of_lt hi)]

/-! ## `find_longest_match` when the first sequence is a uniquely-positioned
run of the second

If every character `a[i]` occurs in `b` exactly at position `i` (which holds
when `a` has pairwise-distinct characters, `b = a ++ rest`, and no character
of `a` recurs in `rest`), the DP rows are single-entry chains and the match
is `(0, 0, |a|)`. -/

lemma flmFold_run (a b : PyStr) (hab : a.length ≤ b.length)
    (hb2j : ∀ i, i < a.length → b2j b (a.getD i 'a') = [i]) :
    ∀ m, m ≤ a.length →
      (List.range m).foldl (flmOuterStep a b 0 b.length)
        ((fun _ => 0), 0, 0, 0) =
        ((fun j' => if j' + 1 = m then m else 0), 0, 0, m) := by
  intro m
  induction m with
  | zero =>
    intro _
    simp only [List.range_zero, List.foldl_nil]
    refine congrArg (fun f => (f, 0, 0, 0)) ?_
    funext j'
    rw [if_neg (by omega)]
  | succ m ih =>
    intro hm
    rw [List.range_succ, List.foldl_append, ih (by omega), List.foldl_cons,
      List.foldl_nil]
    have hmb : m < b.length := by omega
    have hjs : (((b2j b (a.getD m 'a')).takeWhile fun j => decide (j < b.length)).filter
        fun j => decide (0 ≤ j)) = [m] := by
      rw [hb2j m (by omega)]
      simp [hmb]
    simp only [flmOuterStep]
    rw [hjs, List.foldl_cons, List.foldl_nil]
    simp only [flmInnerStep]
    have hk : ((if m = 0 then 0
        else (fun j' => if j' + 1 = m then m else 0) (m - 1)) + 1) = m + 1 := by
      rcases Nat.eq_zero_or_pos m with h0 | h0
      · subst h0; rfl
      · rw [if_neg (by omega)]
        simp only []
        rw [if_pos (by omega)]
    rw [hk, if_pos (by omega : m < m + 1)]
    rw [Nat.sub_self]
    refine congrArg (fun f => ((f : ℕ → ℕ), (0 : ℕ), (0 : ℕ), m + 1)) ?_
    funext j'
    by_cases hj : j' = m
    · subst hj
      rw [if_pos rfl, if_pos rfl]
    · rw [if_neg hj, if_neg (by omega)]

lemma findLongestMatch_run (a b : PyStr) (hne : a ≠ [])
    (hab : a.length ≤ b.length)
    (hb2j : ∀ i, i < a.length → b2j b (a.getD i 'a') = [i]) :
    findLongestMatch a b 0 a.length 0 b.length = (0, 0, a.length) := by
  obtain ⟨m, hm⟩ : ∃ m, a.length = m + 1 := by
    rcases a with _ | ⟨c, t⟩
    · exact absurd rfl hne
    · exact ⟨t.length, rfl⟩
  have hmain : flmMain a b 0 a.length 0 b.length = (0, 0, a.length) := by
    rw [flmMain]
    simp only [Nat.sub_zero]
    rw [← List.range_eq_range', flmFold_run a b hab hb2j a.length le_rfl]
  simp only [findLongestMatch]
  rw [hmain]
  simp only [extendFront]
  rw [hm]
  simp only [extendBack]
  rw [if_neg (by omega)]

lemma matchBlocksAux_nil (a b : PyStr) :
    ∀ (fuel : ℕ) (acc : List (ℕ × ℕ × ℕ)),
      matchBlocksAux a b fuel [] acc = acc := by
  intro fuel acc
  rcases fuel with _ | f <;> rfl

lemma getMatchingBlocks_run (a b : PyStr) (hne : a ≠ [])
    (hab : a.length ≤ b.length)
    (hb2j : ∀ i, i < a.length → b2j b (a.getD i 'a') = [i]) :
    getMatchingBlocks a b = [(0, 0, a.length), (a.length, b.length, 0)] := by
  have hlen : a.length ≠ 0 := fun h => hne (List.length_eq_zero.mp h)
  have hraw : matchBlocksAux a b (a.length + b.length + 1)
      [(0, a.length, 0, b.length)] [] = [(0, 0, a.length)] := by
    simp only [matchBlocksAux]
    rw [findLongestMatch_run a b hne hab hb2j]
    simp only []
    rw [if_pos hlen, if_neg (by omega), if_neg (by omega)]
    simp only [List.nil_append, List.append_nil]
    exact matchBlocksAux_nil a b _ _
  rw [getMatchingBlocks, hraw]
  show collapseAdjacent [(0, 0, a.length)] ++ _ = _
  simp [collapseAdjacent, hlen]

lemma getOpcodes_run (a b : PyStr) (hne : a ≠ [])
    (hab : a.length ≤ b.length)
    (hb2j : ∀ i, i < a.length → b2j b (a.getD i 'a') = [i]) :
    getOpcodes a b =
      ⟨.equal, 0, a.length, 0, a.length⟩ ::
        (if a.length < b.length then
          [⟨.insert, a.length, a.length, a.length, b.length⟩] else []) := by
  have hlen : a.length ≠ 0 := fun h => hne (List.length_eq_zero.mp h)
  rw [getOpcodes, getMatchingBlocks_run a b hne hab hb2j]
  simp only [List.foldl_cons, List.foldl_nil]
  by_cases hb : a.length < b.length
  · rw [if_pos hb]
    simp [hlen, hb]
  · rw [if_neg hb]
    simp [hlen, hb]

lemma pyMaxOpcode_run (a b : PyStr) (hne : a ≠ [])
    (hab : a.length ≤ b.length)
    (hb2j : ∀ i, i < a.length → b2j b (a.getD i 'a') = [i]) :
    pyMaxOpcode (getOpcodes a b) = some ⟨.equal, 0, a.length, 0, a.length⟩ := by
  rw [getOpcodes_run a b hne hab hb2j]
  by_cases hb : a.length < b.length
  · rw [if_pos hb]
    have hkey : keyLt (opKey (⟨.equal, 0, a.length, 0, a.length⟩ : Opcode))
        (opKey (⟨.insert, a.length, a.length, a.length, b.length⟩ : Opcode)) =
          false := rfl
    simp only [pyMaxOpcode, List.foldl_cons, List.foldl_nil]
    rw [if_neg (fun h => by rw [hkey] at h; cases h)]
  · rw [if_neg hb]
    rfl

/-- `_dedup_join` on texts whose normalizations are `R` and `R ++ Y`, with
`R` a uniquely-positioned run of length in `[min_match, window]`: the best
opcode is the boundary equal run `(0, |R|, 0, |R|)`, so the result is
`strip(R ++ (R ++ Y)[:window][|R|:])` — i.e. `strip(R ++ Y[:window−|R|])` —
and everything of `Y` beyond the leading window is dropped. -/
lemma dedupJoin_run (prev nxt R Y : PyStr) (window minMatch : ℕ)
    (hP : normalizeText prev = R) (hN : normalizeText nxt = R ++ Y)
    (hnd : R.Nodup) (hne : R ≠ [])
    (hdisj : ∀ c ∈ Y, c ∉ R)
    (hmm : minMatch ≤ R.length) (hwin : R.length ≤ window) :
    dedupJoin prev nxt window minMatch =
      some (pyStrip (R ++ Y.take (window - R.length))) := by
  have htail : R.drop (R.length - window) = R := by
    rw [Nat.sub_eq_zero_of_le hwin, List.drop_zero]
  have hhead : (R ++ Y).take window = R ++ Y.take (window - R.length) := by
    rw [List.take_append_eq_append_take, List.take_of_length_le hwin]
  have hdisj' : ∀ c ∈ Y.take (window - R.length), c ∉ R :=
    fun c hc => hdisj c (List.take_subset _ _ hc)
  have hab : R.length ≤ (R ++ Y.take (window - R.length)).length := by simp
  have hb2j : ∀ i, i < R.length →
      b2j (R ++ Y.take (window - R.length)) (R.getD i 'a') = [i] :=
    fun i hi => b2j_singleton R _ hnd hdisj' i hi
  have hmax := pyMaxOpcode_run R (R ++ Y.take (window - R.length)) hne hab hb2j
  simp only [dedupJoin, hP, hN, htail, hhead, hmax]
  rw [if_pos ⟨trivial, by simpa using hmm⟩]
  rw [List.drop_left]

/-! ## Concrete boundary runs for the dedup-join claims -/

/-- Run of 40 pairwise-distinct, non-whitespace, non-boundary characters,
standing in for the duplicated boundary speech at a chunk seam. -/
def runR : PyStr := "abcdefghijklmnopqrstuvwxyzABCDEFGHIJKLMN".data

/-- Next-chunk text whose normalization is the run followed by 470 further
characters, so the text extends 10 characters past the leading
500-character window. -/
def c1Nxt : PyStr := runR ++ List.replicate 470 '0'

/-- Second-chunk text in which the boundary run recurs after three joining
characters. -/
def c8B : PyStr := runR ++ " x ".data ++ runR

/-- Short continuation, disjoint from the run, that keeps the second chunk
normalization- and strip-stable. -/
def c8Y : PyStr := " 012".data

lemma replicate_nonnil (n : ℕ) (a : Char) (hn : 0 < n) : List.replicate n a ≠ [] := by
  intro h
  have h2 := congrArg List.length h
  rw [List.length_replicate, List.length_nil] at h2
  omega

lemma runR_norm : normalizeText runR = runR := by
  apply normalizeText_fix <;> decide

lemma c1Nxt_norm : normalizeText c1Nxt = c1Nxt := by
  have hbf : ∀ c ∈ c1Nxt, isLineBoundary c = false := by
    intro c hc
    rcases List.mem_append.mp hc with h | h
    · exact (by decide : ∀ c ∈ runR, isLineBoundary c = false) c h
    · rw [List.eq_of_mem_replicate h]; decide
  have hzw : zwsp ∉ c1Nxt := by
    intro h
    rcases List.mem_append.mp h with h | h
    · exact absurd h (by decide)
    · exact absurd (List.eq_of_mem_replicate h) (by decide)
  refine normalizeText_fix _ (by decide) hbf hzw ?_ ?_
  · rw [show c1Nxt.head? = some 'a' from rfl]; rfl
  · rw [show c1Nxt.getLast? = (runR ++ List.replicate 470 '0').getLast? from rfl,
      List.getLast?_append_of_ne_nil runR (replicate_nonnil 470 '0' (by norm_num)),
      List.getLast?_eq_head?_reverse, List.reverse_replicate]
    rfl

/-! ## Occurrence counting for a uniquely-positioned run -/

lemma isPrefixOf_append_self (l t : PyStr) : l.isPrefixOf (l ++ t) = true := by
  induction l with
  | nil => simp [List.isPrefixOf]
  | cons a l ih => simp [List.isPrefixOf, ih]

lemma isPrefixOf_head?_eq (l m : PyStr) (hne : l ≠ []) (h : l.isPrefixOf m = true) :
    m.head? = l.head? := by
  cases l with
  | nil => exact absurd rfl hne
  | cons a l =>
    cases m with
    | nil => simp [List.isPrefixOf] at h
    | cons b m =>
      simp only [List.isPrefixOf, Bool.and_eq_true, beq_iff_eq] at h
      simp [h.1]

/-- A duplicate-free run `R` followed by characters that never occur in `R`
contains `R` exactly once as a substring: only at position 0. -/
lemma occCount_run (R Y : PyStr) (hnd : R.Nodup) (hne : R ≠ [])
    (hdisj : ∀ c ∈ Y, c ∉ R) : occCount R (R ++ Y) = 1 := by
  have hR0 : 0 < R.length := List.length_pos.mpr hne
  have hset : ((Finset.range ((R ++ Y).length + 1)).filter
      fun p => R.isPrefixOf ((R ++ Y).drop p)) = {0} := by
    ext p
    simp only [Finset.mem_filter, Finset.mem_range, Finset.mem_singleton]
    constructor
    · rintro ⟨hp, hocc⟩
      by_contra hp0
      have hplen : p < (R ++ Y).length := by
        rcases Nat.lt_or_ge p ((R ++ Y).length) with h | h
        · exact h
        · exfalso
          rw [List.drop_eq_nil_of_le h] at hocc
          cases R with
          | nil => exact hne rfl
          | cons a l => simp [List.isPrefixOf] at hocc
      have hhead : ((R ++ Y).drop p).head? = R.head? :=
        isPrefixOf_head?_eq R _ hne hocc
      rw [List.head?_drop] at hhead
      have hR0' : R.head? = some R[0] := by
        rw [List.head?_eq_getElem?]
        exact (List.getElem?_eq_some_getElem_iff R 0 hR0).mpr trivial
      have h1 : some ((R ++ Y)[p]) = some (R[0]) := by
        rw [← (List.getElem?_eq_some_getElem_iff _ p hplen).mpr trivial, hhead, hR0']
      have hval := Option.some.inj h1
      rcases Nat.lt_or_ge p R.length with hpR | hpR
      · rw [List.getElem_append_left hpR] at hval
        exact hp0 ((List.Nodup.getElem_inj_iff hnd).mp hval)
      · have hpY : p - R.length < Y.length := by
          rw [List.length_append] at hplen; omega
        rw [List.getElem_append_right hpR] at hval
        refine hdisj _ (List.getElem_mem hpY) ?_
        rw [hval]
        exact List.getElem_mem hR0
    · rintro rfl
      exact ⟨by omega, by rw [List.drop_zero]; exact isPrefixOf_append_self R Y⟩
  rw [occCount, hset]
  rfl

/-! ## C1 and C8 -/

set_option maxRecDepth 2000 in
/-- C1: the dedup join does NOT re-append the remainder of the next chunk
beyond its leading 500-character window. With accumulated text the
40-character run and next chunk the run followed by 470 characters, the
best opcode is the full-run equal match, so the claim expects
`run ++ 460 chars ++ 10 chars` (510 characters: window remainder after the
match, then the text past the window); the code instead returns
`prev_n + head[j2:]`, the 500-character `run ++ 460 chars`, silently
losing `nxt_n[500:]`. -/
theorem c1_dedup_join_loses_tail :
    dedupJoinDefault runR c1Nxt = some (runR ++ List.replicate 460 '0') ∧
      dedupJoinDefault runR c1Nxt ≠
        some (runR ++ List.replicate 460 '0' ++ List.replicate 10 '0') := by
  have hmain : dedupJoinDefault runR c1Nxt = some (runR ++ List.replicate 460 '0') := by
    unfold dedupJoinDefault
    rw [dedupJoin_run runR c1Nxt runR (List.replicate 470 '0') 500 30 runR_norm c1Nxt_norm
      (by decide) (by decide)
      (fun c hc => by rw [List.eq_of_mem_replicate hc]; decide)
      (by decide) (by decide)]
    have htake : (List.replicate 470 '0').take (500 - runR.length) =
        List.replicate 460 '0' := by
      rw [show (500 - runR.length : ℕ) = 460 from by decide, List.take_replicate]
      norm_num
    rw [htake,
      pyStrip_fix (runR ++ List.replicate 460 '0')
        (by rw [show (runR ++ List.replicate 460 '0').head? = some 'a' from rfl]; rfl)
        (by rw [List.getLast?_append_of_ne_nil runR (replicate_nonnil 460 '0' (by norm_num)),
          List.getLast?_eq_head?_reverse, List.reverse_replicate]; rfl)]
  refine ⟨hmain, ?_⟩
  rw [hmain]
  intro h
  have h2 := congrArg List.length (Option.some.inj h)
  simp only [List.length_append, List.length_replicate] at h2
  omega

set_option maxRecDepth 100000 in
/-- C8 counterexample: chunk B's normalized leading 40 characters equal
chunk A's normalized trailing 40 characters, yet the stitched full text
contains that run twice — the run recurs later in B and the dedup join
removes only the leading copy. -/
theorem c8_counterexample :
    (normalizeText c8B).take 40 =
        (normalizeText runR).drop ((normalizeText runR).length - 40) ∧
      (stitchFullText [runR, c8B]).map (occCount ((normalizeText c8B).take 40)) =
        some 2 := by
  decide

set_option maxRecDepth 4000 in
/-- C8 amended: the round-trip holds when chunk A's text is exactly the
shared 40-character boundary run `R`, the run has pairwise-distinct
characters none of which recurs in the rest of chunk B (and both chunk
texts are normalization- and strip-stable, with B no longer than the
500-character window): the stitched full text is exactly `R ++ Y` and the
run occurs in it exactly once. Restricting A to the bare run is needed: a
longer A with the same trailing run can make the `(is_equal, j1 - i2)`
max key prefer a spurious later 1-character equal opcode over the
boundary run, so the join falls back to the space join and the run
repeats. -/
theorem c8_stitch_dedup (R Y : PyStr) (hnd : R.Nodup) (hlen : R.length = 40)
    (hdisj : ∀ c ∈ Y, c ∉ R) (hY : Y.length ≤ 460)
    (hA : normalizeText R = R) (hB : normalizeText (R ++ Y) = R ++ Y)
    (hs : pyStrip (R ++ Y) = R ++ Y) :
    stitchFullText [R, R ++ Y] = some (R ++ Y) ∧ occCount R (R ++ Y) = 1 := by
  have hne : R ≠ [] := by intro h; rw [h] at hlen; exact absurd hlen (by decide)
  have hj : dedupJoinDefault R (R ++ Y) = some (R ++ Y) := by
    unfold dedupJoinDefault
    rw [dedupJoin_run R (R ++ Y) R Y 500 30 hA hB hnd hne hdisj (by omega) (by omega),
      List.take_of_length_le (by omega), hs]
  have hABne : R ++ Y ≠ [] := by
    intro h
    cases R with
    | nil => exact hne rfl
    | cons a t => simp at h
  refine ⟨?_, occCount_run R Y hnd hne hdisj⟩
  have hs1 : stitchStep 0 [] R = some R := by
    rw [stitchStep, if_neg hne, if_pos rfl, hA]
  have hs2 : stitchStep 1 R (R ++ Y) = some (R ++ Y) := by
    rw [stitchStep, if_neg hABne, if_neg (by omega : ¬(1 = 0)), hj]
  have hstep : stitchAux 0 [] [R, R ++ Y] = some (R ++ Y) := by
    rw [stitchAux_cons, hs1]
    show stitchAux 1 R [R ++ Y] = some (R ++ Y)
    rw [stitchAux_cons, hs2]
    rfl
  rw [stitchFullText, hstep, Option.map_some', hs]

set_option maxRecDepth 10000 in
/-- Witness for the amended C8 theorem: the distinct-letter run and a short
disjoint continuation. -/
theorem c8_stitch_dedup_witness :
    stitchFullText [runR, runR ++ c8Y] = some (runR ++ c8Y) ∧
      occCount runR (runR ++ c8Y) = 1 :=
  c8_stitch_dedup runR c8Y (by decide) (by decide) (by decide) (by decide)
    (by decide) (by decide) (by decide)

end Transcriber
